import Mathlib

/-!
Verification development for the penalty-kick player-tracking and two-pass
landmark-extraction pipeline (src/detector.py).

Shallow embedding conventions:
* Pixel coordinates and confidences are rationals (`ℚ`); the Python floats
  0.015, 0.35, 0.05, 1.2, 5.0, 0.3 become the exact rationals they denote.
* Euclidean distances are represented by their squares (`d2`): the square
  root is strictly monotone on nonnegative rationals, so sorting by squared
  distance is the same order as sorting by distance, and
  `sqrt d2 < m  ↔  0 < m ∧ d2 < m * m` (the comparison `distLt` below).
* Python dicts with integer keys become insertion-ordered association lists
  `List (ℕ × _)`; key uniqueness is an invariant proved from reachability.
* A missing value (numpy NaN) is `Option.none`; a present value is `some q`.
* A Python crash that would propagate out of the per-frame loop (KeyError,
  TypeError) is modelled by `Option.none` at the operation's result type.
* The external detection and pose capabilities are parameters: a frame
  carries the list of person detections the detector returned for it, and a
  pose oracle mapping the expanded-and-clipped crop rectangle to the pose
  model's keypoint output (`none` when the model found no pose).
-/

/-- A person detection in one frame: bounding-box corners and confidence,
as passed around in `src/detector.py` as tuples `(x1, y1, x2, y2, conf)`. -/
structure Det where
  x1 : ℚ
  y1 : ℚ
  x2 : ℚ
  y2 : ℚ
  conf : ℚ
  deriving DecidableEq

/-- One live track of `PlayerTracker`: last known center, last known
bounding box, the lost-frame counter and last confidence
(the dict stored in `self.tracks[track_id]`). -/
structure Track where
  cx : ℚ
  cy : ℚ
  bx1 : ℚ
  by1 : ℚ
  bx2 : ℚ
  by2 : ℚ
  framesLost : ℤ
  conf : ℚ
  deriving DecidableEq

/-- Constructor arguments of `PlayerTracker.__init__`: `max_distance`
and `max_frames_lost`, fixed for the tracker's lifetime. -/
structure Config where
  maxDistance : ℚ
  maxFramesLost : ℤ
  deriving DecidableEq

/-- Mutable state of one `PlayerTracker` instance: the registry
`self.tracks` (a dict, i.e. an insertion-ordered association list) and
`self.next_id`. -/
structure TrackerState where
  tracks : List (ℕ × Track)
  nextId : ℕ
  deriving DecidableEq

/-- `PlayerTracker.__init__`: empty registry, `next_id = 1`. -/
def initTracker : TrackerState := ⟨[], 1⟩

/-- Detection center x-coordinate, `(x1 + x2) / 2`. -/
def detCenterX (d : Det) : ℚ := (d.x1 + d.x2) / 2

/-- Detection center y-coordinate, `(y1 + y2) / 2`. -/
def detCenterY (d : Det) : ℚ := (d.y1 + d.y2) / 2

/-- The track value written for a detection that is matched to a track or
spawns a new one: center and bbox from the detection, lost counter 0,
confidence from the detection (lines 90-99 and 101-115 of detector.py). -/
def mkTrack (d : Det) : Track :=
  ⟨detCenterX d, detCenterY d, d.x1, d.y1, d.x2, d.y2, 0, d.conf⟩

/-- Squared Euclidean distance between a detection's center and a track's
last known center (one entry of the `cdist` matrix, squared). -/
def sqDistTo (d : Det) (t : Track) : ℚ :=
  (detCenterX d - t.cx) * (detCenterX d - t.cx) +
    (detCenterY d - t.cy) * (detCenterY d - t.cy)

/-- `sqrt d2 < m` expressed on squared distances: the Python comparison
`distances[det_idx, track_idx] < self.max_distance`. -/
def distLt (d2 m : ℚ) : Prop := 0 < m ∧ d2 < m * m

instance (d2 m : ℚ) : Decidable (distLt d2 m) :=
  inferInstanceAs (Decidable (0 < m ∧ d2 < m * m))

/-- One (detection, track) candidate pairing considered by the greedy
association: detection index and value, track index (into the registry's
key list), track id, and squared center distance. -/
structure Pair where
  detIdx : ℕ
  det : Det
  trackIdx : ℕ
  trackId : ℕ
  d2 : ℚ
  deriving DecidableEq

/-- Comparison used to sort candidate pairings: ascending (squared)
center distance. -/
def pairLE (p q : Pair) : Prop := p.d2 ≤ q.d2

instance : DecidableRel pairLE :=
  fun p q => inferInstanceAs (Decidable (p.d2 ≤ q.d2))

instance : IsTotal Pair pairLE := ⟨fun p q => le_total p.d2 q.d2⟩

instance : IsTrans Pair pairLE := ⟨fun _ _ _ h h2 => le_trans h h2⟩

/-- All pairings of one detection (index `i`) with the registry entries,
track indices counting from `j`. -/
def trackPairs (i : ℕ) (d : Det) : ℕ → List (ℕ × Track) → List Pair
  | _, [] => []
  | j, it :: ts => ⟨i, d, j, it.1, sqDistTo d it.2⟩ :: trackPairs i d (j + 1) ts

/-- All (detection, track) pairings in row-major order (the order of the
ravelled `cdist` matrix), detection indices counting from `i`. -/
def allPairs : ℕ → List Det → List (ℕ × Track) → List Pair
  | _, [], _ => []
  | i, d :: ds, ts => trackPairs i d 0 ts ++ allPairs (i + 1) ds ts

/-- The pair list sorted by ascending distance (`np.argsort` over the
ravelled distance matrix; ties are ordered deterministically). -/
def sortedPairs (ds : List Det) (ts : List (ℕ × Track)) : List Pair :=
  List.insertionSort pairLE (allPairs 0 ds ts)

/-- State of the greedy walk over the sorted pair list: the sets
`assigned_detections` and `assigned_tracks` (of detection indices and
track indices) and the accepted pairings in acceptance order. -/
structure GreedyState where
  assignedDets : List ℕ
  assignedTrackIdxs : List ℕ
  accepted : List Pair
  deriving DecidableEq

/-- One step of the greedy walk: accept the pairing exactly when neither
its detection nor its track is already claimed and its distance is
strictly below `max_distance` (lines 75-82 of detector.py). -/
def greedyStep (cfg : Config) (g : GreedyState) (p : Pair) : GreedyState :=
  if p.detIdx ∉ g.assignedDets ∧ p.trackIdx ∉ g.assignedTrackIdxs ∧
      distLt p.d2 cfg.maxDistance then
    ⟨p.detIdx :: g.assignedDets, p.trackIdx :: g.assignedTrackIdxs,
      g.accepted ++ [p]⟩
  else g

/-- The full greedy walk, a single pass over the given pair list with no
backtracking. -/
def runGreedy (cfg : Config) (ps : List Pair) : GreedyState :=
  ps.foldl (greedyStep cfg) ⟨[], [], []⟩

/-- The association phase of `PlayerTracker.update`: greedy walk over the
distance-sorted pair list. When the registry is empty the pair list is
empty and no pairing is accepted, which coincides with the code's
separate `else` branch for an empty registry. -/
def matchPhase (cfg : Config) (ds : List Det) (ts : List (ℕ × Track)) : GreedyState :=
  runGreedy cfg (sortedPairs ds ts)

/-- An entry of the Python `assignments` list: `(det_idx, track_id)`,
carrying the detection value itself alongside its index. -/
structure Assign where
  detIdx : ℕ
  det : Det
  trackId : ℕ
  deriving DecidableEq

/-- Lines 89-99: for every accepted pairing overwrite the track's center,
bbox, lost counter (to 0) and confidence with the matched detection's
data, in acceptance order. -/
def applyMatches (ts : List (ℕ × Track)) (as : List Assign) : List (ℕ × Track) :=
  as.foldl
    (fun acc a =>
      acc.map (fun it => if it.1 = a.trackId then (it.1, mkTrack a.det) else it))
    ts

/-- Lines 101-115: walk the detections in order (index counting from `i`);
every detection not claimed by the association phase creates a new track
under the next fresh id. Returns the new registry entries, the new
`assignments` entries, and the final `next_id`, all in creation order. -/
def addNewGo (claimed : List ℕ) : ℕ → ℕ → List Det → List (ℕ × Track) × List Assign × ℕ
  | nid, _, [] => ([], [], nid)
  | nid, i, d :: ds =>
    if i ∈ claimed then addNewGo claimed nid (i + 1) ds
    else
      let r := addNewGo claimed (nid + 1) (i + 1) ds
      ((nid, mkTrack d) :: r.1, ⟨i, d, nid⟩ :: r.2.1, r.2.2)

/-- Increment a track's lost counter by one. -/
def bumpLost (t : Track) : Track := { t with framesLost := t.framesLost + 1 }

/-- Dict lookup `self.tracks[track_id]` (first entry with the given key). -/
def lookupTrack (i : ℕ) : List (ℕ × Track) → Option Track
  | [] => none
  | it :: ts => if it.1 = i then some it.2 else lookupTrack i ts

/-- One returned tuple `(track_id, x1, y1, x2, y2, conf)` of
`PlayerTracker.update`. -/
structure Out where
  trackId : ℕ
  x1 : ℚ
  y1 : ℚ
  x2 : ℚ
  y2 : ℚ
  conf : ℚ
  deriving DecidableEq

/-- The tuple built in the result loop (lines 128-132) from a track's
stored bbox and confidence. -/
def mkOut (i : ℕ) (t : Track) : Out := ⟨i, t.bx1, t.by1, t.bx2, t.by2, t.conf⟩

/-- Lines 41-47 (and the same aging/removal steps in lines 117-125):
age every track by one and remove every track whose counter exceeds
`max_frames_lost`. -/
def agedTracks (cfg : Config) (ts : List (ℕ × Track)) : List (ℕ × Track) :=
  (ts.map (fun it => (it.1, bumpLost it.2))).filter
    (fun it => decide (it.2.framesLost ≤ cfg.maxFramesLost))

/-- The `assignments` entries of the association phase, as Python builds
them on line 80: `(det_idx, track_ids[track_idx])`. -/
def matchAssigns (cfg : Config) (s : TrackerState) (ds : List Det) : List Assign :=
  (matchPhase cfg ds s.tracks).accepted.map (fun p => ⟨p.detIdx, p.det, p.trackId⟩)

/-- The new-track creation phase of this frame (lines 101-115). -/
def newPart (cfg : Config) (s : TrackerState) (ds : List Det) :
    List (ℕ × Track) × List Assign × ℕ :=
  addNewGo (matchPhase cfg ds s.tracks).assignedDets s.nextId 0 ds

/-- The full `assignments` list of this frame: matched pairings followed
by newly created tracks, in the order Python appends them. -/
def assigns2Of (cfg : Config) (s : TrackerState) (ds : List Det) : List Assign :=
  matchAssigns cfg s ds ++ (newPart cfg s ds).2.1

/-- The registry after overwriting matched tracks and appending new ones
(dict insertion order). -/
def ts2Of (cfg : Config) (s : TrackerState) (ds : List Det) : List (ℕ × Track) :=
  applyMatches s.tracks (matchAssigns cfg s ds) ++ (newPart cfg s ds).1

/-- The registry after incrementing the counter of every track not in
this frame's `assignments` (lines 117-120). -/
def ts3Of (cfg : Config) (s : TrackerState) (ds : List Det) : List (ℕ × Track) :=
  (ts2Of cfg s ds).map
    (fun it =>
      if it.1 ∈ (assigns2Of cfg s ds).map Assign.trackId then it
      else (it.1, bumpLost it.2))

/-- The registry after removing every track whose counter exceeds
`max_frames_lost` (lines 122-125). -/
def ts4Of (cfg : Config) (s : TrackerState) (ds : List Det) : List (ℕ × Track) :=
  (ts3Of cfg s ds).filter (fun it => decide (it.2.framesLost ≤ cfg.maxFramesLost))

/-- `PlayerTracker.update` (lines 31-134). With an empty detection list
every track ages by one and overaged tracks are removed (lines 41-47).
Otherwise: greedy association, overwrite matched tracks, create new
tracks for unclaimed detections, age every unassigned track, remove every
track whose counter exceeds `max_frames_lost`, and return one tuple per
`assignments` entry by dict lookup. A failed lookup models the Python
KeyError (possible only when `max_frames_lost < 0`) and yields `none`. -/
def update (cfg : Config) (s : TrackerState) (ds : List Det) :
    Option (List Out × TrackerState) :=
  if ds.isEmpty then some ([], ⟨agedTracks cfg s.tracks, s.nextId⟩)
  else
    ((assigns2Of cfg s ds).mapM
        (fun a => (lookupTrack a.trackId (ts4Of cfg s ds)).map (mkOut a.trackId))).map
      (fun outs => (outs, ⟨ts4Of cfg s ds, (newPart cfg s ds).2.2⟩))

/-- The ids of the tracks matched to a detection by this frame's
association phase (empty when the detection list is empty). -/
def matchedIds (cfg : Config) (s : TrackerState) (ds : List Det) : List ℕ :=
  if ds.isEmpty then []
  else (matchPhase cfg ds s.tracks).accepted.map Pair.trackId

/-- The ids freshly allocated by this frame's update, in creation order. -/
def newIdsOf (cfg : Config) (s : TrackerState) (ds : List Det) : List ℕ :=
  if ds.isEmpty then [] else ((newPart cfg s ds).2.1).map Assign.trackId

/-- Feed a sequence of per-frame detection lists to one tracker instance,
collecting the per-frame returned track lists. -/
def runTrackerFrom (cfg : Config) : TrackerState → List (List Det) →
    Option (List (List Out) × TrackerState)
  | s, [] => some ([], s)
  | s, ds :: rest =>
    match update cfg s ds with
    | none => none
    | some (outs, s1) =>
      (runTrackerFrom cfg s1 rest).map (fun r => (outs :: r.1, r.2))

/-- Feed a sequence of per-frame detection lists to one tracker instance,
collecting every freshly allocated track id in creation order. -/
def runAlloc (cfg : Config) : TrackerState → List (List Det) →
    Option (List ℕ × TrackerState)
  | s, [] => some ([], s)
  | s, ds :: rest =>
    match update cfg s ds with
    | none => none
    | some (_, s1) =>
      (runAlloc cfg s1 rest).map (fun r => (newIdsOf cfg s ds ++ r.1, r.2))

/-- Tracker states reachable from a fresh `PlayerTracker` by update calls. -/
inductive Reachable (cfg : Config) : TrackerState → Prop
  | init : Reachable cfg initTracker
  | step {s ds outs s1} : Reachable cfg s → update cfg s ds = some (outs, s1) →
      Reachable cfg s1

/-- Registry well-formedness: keys are pairwise distinct, every key is
below `next_id`, and every lost counter is nonnegative. -/
def StateInv (s : TrackerState) : Prop :=
  (s.tracks.map Prod.fst).Nodup ∧
    ∀ it ∈ s.tracks, it.1 < s.nextId ∧ 0 ≤ it.2.framesLost

/-- `FootballPlayerDetector.filter_players_in_field` (lines 197-232):
keep a detection when its bbox height lies strictly between
`0.015 * min(width, height)` and `0.35 * min(width, height)`, its
height/width quotient lies strictly between 1.2 and 5.0, and its vertical
center is not above `0.05 * height`. The frame shape is `(height, width)`
as in `frame.shape[:2]`. The loop with `continue`s is translated as a
left fold appending kept detections. -/
def filter_players_in_field (detections : List Det) (frame_shape : ℕ × ℕ) : List Det :=
  let height : ℚ := frame_shape.1
  let width : ℚ := frame_shape.2
  detections.foldl
    (fun acc d =>
      let bbox_height := d.y2 - d.y1
      let bbox_width := d.x2 - d.x1
      let center_y := (d.y1 + d.y2) / 2
      let min_size := min width height * 0.015
      let max_size := min width height * 0.35
      if ¬(min_size < bbox_height ∧ bbox_height < max_size) then acc
      else if ¬((1.2 : ℚ) < bbox_height / bbox_width ∧ bbox_height / bbox_width < 5.0) then acc
      else if center_y < height * 0.05 then acc
      else acc ++ [d])
    []

/-- Modelled from the spec's filter rules, for the refinement statement:
bbox height strictly between 1.5% and 35% of `min(frame width, frame
height)`, height/width aspect strictly between 1.2 and 5.0, and vertical
center not within the top 5% of the frame. (In `ℚ`, division by a zero
width yields 0, which fails the aspect bounds exactly as the code's
infinite or undefined quotient fails them.) -/
def specFilterKeep (frame_shape : ℕ × ℕ) (d : Det) : Prop :=
  let height : ℚ := frame_shape.1
  let width : ℚ := frame_shape.2
  ((1.5 / 100) * min width height < d.y2 - d.y1 ∧
      d.y2 - d.y1 < (35 / 100) * min width height) ∧
    ((1.2 : ℚ) < (d.y2 - d.y1) / (d.x2 - d.x1) ∧
      (d.y2 - d.y1) / (d.x2 - d.x1) < 5) ∧
    ¬((d.y1 + d.y2) / 2 < (5 / 100) * height)

instance (sh : ℕ × ℕ) (d : Det) : Decidable (specFilterKeep sh d) :=
  inferInstanceAs (Decidable (_ ∧ _ ∧ _))

/-- Python `int()` applied to an exact rational: truncation toward zero. -/
def pyInt (q : ℚ) : ℤ := q.num.tdiv q.den

/-- Number of indices selected by the numpy slice `start:stop` along an
axis of length `n` (negative bounds count from the end, then both are
clamped to `[0, n]`). -/
def sliceLen (start stop n : ℤ) : ℤ :=
  let start1 := if start < 0 then max 0 (start + n) else min start n
  let stop1 := if stop < 0 then max 0 (stop + n) else min stop n
  max 0 (stop1 - start1)

/-- One adjusted keypoint as built in `get_pose_for_player`: each of x, y
and confidence is either a value or the NaN marker. -/
abbrev Kp := Option ℚ × Option ℚ × Option ℚ

/-- `pd.isna`-based validity test from the second pass (lines 578-581):
a keypoint counts as valid when none of its three entries is missing. -/
def kpValid (k : Kp) : Bool := !(k.1.isNone || k.2.1.isNone || k.2.2.isNone)

/-- The pose oracle: for the expanded-and-clipped crop rectangle
`(x1, y1, x2, y2)` of the current frame, the pose model's keypoint list
`(x, y, conf)` in crop coordinates, or `none` when the model returned no
keypoints for the crop. -/
abbrev PoseCap := ℤ × ℤ × ℤ × ℤ → Option (List (ℚ × ℚ × ℚ))

/-- `FootballPlayerDetector.get_pose_for_player` (lines 305-356): expand
the bbox by a 20-pixel margin, clip to the frame, and crop. An empty crop
returns `none` (the Python `None`). Otherwise each returned keypoint is
translated back to frame coordinates when its confidence exceeds 0.3 and
is fully NaN otherwise; if the pose model returns nothing, all 17
keypoints are NaN. The frame shape is `(height, width)`. -/
def get_pose_for_player (cap : PoseCap) (shape : ℕ × ℕ)
    (bx1 by1 bx2 by2 : ℚ) : Option (List Kp) :=
  let height : ℤ := shape.1
  let width : ℤ := shape.2
  let x1 := max 0 (pyInt bx1 - 20)
  let y1 := max 0 (pyInt by1 - 20)
  let x2 := min width (pyInt bx2 + 20)
  let y2 := min height (pyInt by2 + 20)
  if sliceLen y1 y2 height = 0 ∨ sliceLen x1 x2 width = 0 then none
  else
    match cap (x1, y1, x2, y2) with
    | some kps =>
      some (kps.map (fun kp =>
        if (0.3 : ℚ) < kp.2.2 then
          (some (kp.1 + (x1 : ℚ)), some (kp.2.1 + (y1 : ℚ)), some kp.2.2)
        else ((none : Option ℚ), (none : Option ℚ), (none : Option ℚ))))
    | none =>
      some (List.replicate 17 ((none : Option ℚ), (none : Option ℚ), (none : Option ℚ)))

/-- One video frame as the second pass sees it: the frame dimensions
`(height, width)`, the person detections the detection model produced for
it, and its pose oracle. -/
structure Frame where
  shape : ℕ × ℕ
  dets : List Det
  cap : PoseCap

/-- One candidate's data in `candidate_players`: its keypoints and its
count of valid keypoints. -/
structure Cand where
  keypoints : List Kp
  validCount : ℕ
  deriving DecidableEq

/-- Lines 569-586: walk the tracked players in order; for every one whose
id is in the candidate set, run the pose stage on its bbox and count the
valid keypoints. A `None` pose result makes the Python loop
`for kp in keypoints` raise TypeError, aborting the run: modelled as
`none`. -/
def candidatesOf (fr : Frame) (sel : List ℕ) : List Out → Option (List (ℕ × Cand))
  | [] => some []
  | o :: rest =>
    if o.trackId ∈ sel then
      match get_pose_for_player fr.cap fr.shape o.x1 o.y1 o.x2 o.y2 with
      | none => none
      | some kps =>
        (candidatesOf fr sel rest).map
          (fun cs => (o.trackId, Cand.mk kps (kps.filter kpValid).length) :: cs)
    else candidatesOf fr sel rest

/-- Python `max` with a key function, scanning left to right with a
current best that is replaced only on a strictly greater key: the first
element attaining the maximal key wins. -/
def pyMaxFrom (b : ℕ × Cand) : List (ℕ × Cand) → ℕ × Cand
  | [] => b
  | c :: cs => if b.2.validCount < c.2.validCount then pyMaxFrom c cs else pyMaxFrom b cs

/-- Line 594: `max(candidate_players.keys(), key=valid_count)` over the
candidates in insertion order; `none` when there is no candidate. -/
def pyMax : List (ℕ × Cand) → Option (ℕ × Cand)
  | [] => none
  | c :: cs => some (pyMaxFrom c cs)

/-- One emitted LandmarkRecord: the frame index followed by the 51
keypoint fields (x, y, confidence for each of the 17 keypoints), missing
fields being `none`. -/
structure Row where
  frame : ℕ
  fields : List (Option ℚ)
  deriving DecidableEq

/-- Line 599: `player_usage_count[best_player_id] += 1` when a best
candidate was found this frame. -/
def bumpUsage (usage : List (ℕ × ℕ)) : Option (ℕ × Cand) → List (ℕ × ℕ)
  | none => usage
  | some bc => usage.map (fun pc => if pc.1 = bc.1 then (pc.1, pc.2 + 1) else pc)

/-- One frame of the second pass (lines 547-616): detection, filter,
tracker update, pose extraction for every candidate, best-candidate
selection, and the emitted row (all 51 fields NaN when no candidate was
found). Returns the row, the chosen best candidate (id and data, the
variables `best_player_id` / `best_keypoints`), and the new tracker
state; `none` models an uncaught exception aborting the run. -/
def processFrame (cfg : Config) (sel : List ℕ) (idx : ℕ) (s : TrackerState)
    (fr : Frame) : Option (Row × Option (ℕ × Cand) × TrackerState) :=
  match update cfg s (filter_players_in_field fr.dets fr.shape) with
  | none => none
  | some (tracked, s1) =>
    match candidatesOf fr sel tracked with
    | none => none
    | some cands =>
      let best := pyMax cands
      let row : Row :=
        match best with
        | some bc => ⟨idx, bc.2.keypoints.flatMap (fun k => [k.1, k.2.1, k.2.2])⟩
        | none => ⟨idx, (List.replicate 17 [(none : Option ℚ), none, none]).flatten⟩
      some (row, best, s1)

/-- The second pass's frame loop: sequential frame indices, one row per
frame, usage bookkeeping, and the final frame count. -/
def pass2Go (cfg : Config) (sel : List ℕ) :
    TrackerState → ℕ → List (ℕ × ℕ) → List Frame →
      Option (List Row × List (ℕ × ℕ) × ℕ)
  | _, idx, usage, [] => some ([], usage, idx)
  | s, idx, usage, fr :: rest =>
    match processFrame cfg sel idx s fr with
    | none => none
    | some (row, best, s1) =>
      (pass2Go cfg sel s1 (idx + 1) (bumpUsage usage best) rest).map
        (fun r => (row :: r.1, r.2.1, r.2.2))

/-- The tracker configuration both passes construct:
`PlayerTracker(max_distance=80, max_frames_lost=15)`. -/
def cfg0 : Config := ⟨80, 15⟩

/-- `process_video_second_pass` (lines 509-656) over a decoded frame
list: reinitialize the tracker, start usage counters at zero for every
selected id, and run the frame loop. Returns the emitted rows, the
per-candidate usage counts and the total frame count, or `none` when an
uncaught exception aborts the run. -/
def pass2 (sel : List ℕ) (frames : List Frame) :
    Option (List Row × List (ℕ × ℕ) × ℕ) :=
  pass2Go cfg0 sel initTracker 0 (sel.map (fun pid => (pid, 0))) frames

/-- The first pass's frame loop (lines 396-432 via
`detect_players_in_frame`): per frame, detection, filter and tracker
update, recording the per-frame player count `len(tracked_players)`. -/
def pass1Go (cfg : Config) : TrackerState → List Frame → Option (List ℕ × TrackerState)
  | s, [] => some ([], s)
  | s, fr :: rest =>
    match update cfg s (filter_players_in_field fr.dets fr.shape) with
    | none => none
    | some (outs, s1) =>
      (pass1Go cfg s1 rest).map (fun r => (outs.length :: r.1, r.2))

/-- `process_video_first_pass` over a decoded frame list, with the
tracker the detector constructed. -/
def pass1 (frames : List Frame) : Option (List ℕ × TrackerState) :=
  pass1Go cfg0 initTracker frames

/-- A best candidate `x` is the first maximizer of the valid-keypoint
count in the candidate list: everything before it counts strictly fewer
valid keypoints, everything after it counts at most as many. -/
def FirstMaxSel (cands : List (ℕ × Cand)) (x : ℕ × Cand) : Prop :=
  ∃ l1 l2, cands = l1 ++ x :: l2 ∧
    (∀ y ∈ l1, y.2.validCount < x.2.validCount) ∧
    ∀ y ∈ l2, y.2.validCount ≤ x.2.validCount

attribute [local semireducible] Rat.mul Rat.add Rat.sub Rat.inv Rat.ofScientific

/-! Concrete fixtures used by witnesses and counterexamples. -/

/-- A detection at the left of the test frame (passes every filter rule
for a 1000 x 1000 frame). -/
def dA : Det := ⟨0, 500, 20, 550, 9/10⟩

/-- A detection 100 pixels to the right of `dA`. -/
def dB : Det := ⟨100, 500, 120, 550, 9/10⟩

/-- A detection 10 pixels right of where `dA` was (distance 10 from track
1's center, 90 from track 2's). -/
def dC : Det := ⟨10, 500, 30, 550, 9/10⟩

/-- A detection exactly where `dB` was (distance 0 from track 2's
center). -/
def dD : Det := ⟨100, 500, 120, 550, 9/10⟩

/-- A pose oracle returning 17 keypoints at (1, 1) with confidence 1 for
any crop. -/
def capConst : PoseCap := fun _ => some (List.replicate 17 ((1 : ℚ), 1, 1))

/-- First counterexample frame: two detections spawning tracks 1 and 2. -/
def cexF1 : Frame := ⟨(1000, 1000), [dA, dB], capConst⟩

/-- Second counterexample frame: track 2's detection is closer to its
track than track 1's, so the greedy association accepts track 2 first
and the tracker returns it first. -/
def cexF2 : Frame := ⟨(1000, 1000), [dC, dD], capConst⟩

/-- A detection whose bbox lies entirely right of a 100-pixel-wide frame:
it passes the filter (which has no horizontal rule) but its
expanded-and-clipped pose crop is empty. -/
def dE : Det := ⟨150, 40, 160, 60, 9/10⟩

/-- The frame exhibiting the empty-crop abort: 100 x 100 frame holding
only `dE`. -/
def cropFrame : Frame := ⟨(100, 100), [dE], capConst⟩

/-- A pose oracle returning 17 keypoints at (5, 5) with confidence 1. -/
def capW : PoseCap := fun _ => some (List.replicate 17 ((5 : ℚ), 5, 1))

/-- Witness frame: a single detection, candidate set {1}. -/
def wFrame : Frame := ⟨(1000, 1000), [dA], capW⟩

/-! Detection Filter: equivalence with the spec's three rules. -/

/-- The source's keep condition, in the source's own numeral forms. -/
def srcKeep (sh : ℕ × ℕ) (d : Det) : Prop :=
  (min (sh.2 : ℚ) (sh.1 : ℚ) * 0.015 < d.y2 - d.y1 ∧
      d.y2 - d.y1 < min (sh.2 : ℚ) (sh.1 : ℚ) * 0.35) ∧
    ((1.2 : ℚ) < (d.y2 - d.y1) / (d.x2 - d.x1) ∧
      (d.y2 - d.y1) / (d.x2 - d.x1) < 5.0) ∧
    ¬((d.y1 + d.y2) / 2 < (sh.1 : ℚ) * 0.05)

instance (sh : ℕ × ℕ) (d : Det) : Decidable (srcKeep sh d) :=
  inferInstanceAs (Decidable (_ ∧ _ ∧ _))

/-- The source's keep condition and the spec's three rules agree. -/
theorem srcKeep_iff_specFilterKeep (sh : ℕ × ℕ) (d : Det) :
    srcKeep sh d ↔ specFilterKeep sh d := by
  unfold srcKeep specFilterKeep
  constructor
  · rintro ⟨⟨a1, a2⟩, ⟨b1, b2⟩, c⟩
    exact ⟨⟨by linarith, by linarith⟩, ⟨by linarith, by linarith⟩, fun hc => c (by linarith)⟩
  · rintro ⟨⟨a1, a2⟩, ⟨b1, b2⟩, c⟩
    exact ⟨⟨by linarith, by linarith⟩, ⟨by linarith, by linarith⟩, fun hc => c (by linarith)⟩

/-- The source's filter loop equals a `List.filter` by the spec's
predicate (same kept detections, in input order). -/
theorem filter_players_eq_filter (ds : List Det) (sh : ℕ × ℕ) :
    filter_players_in_field ds sh = ds.filter (fun d => decide (specFilterKeep sh d)) := by
  have hsrc : filter_players_in_field ds sh = ds.filter (fun d => decide (srcKeep sh d)) := by
    show List.foldl _ [] ds = _
    suffices h : ∀ acc : List Det,
        List.foldl
          (fun acc d =>
            let bbox_height := d.y2 - d.y1
            let bbox_width := d.x2 - d.x1
            let center_y := (d.y1 + d.y2) / 2
            let min_size := min (sh.2 : ℚ) (sh.1 : ℚ) * 0.015
            let max_size := min (sh.2 : ℚ) (sh.1 : ℚ) * 0.35
            if ¬(min_size < bbox_height ∧ bbox_height < max_size) then acc
            else if ¬((1.2 : ℚ) < bbox_height / bbox_width ∧ bbox_height / bbox_width < 5.0) then acc
            else if center_y < (sh.1 : ℚ) * 0.05 then acc
            else acc ++ [d]) acc ds =
        acc ++ ds.filter (fun d => decide (srcKeep sh d)) by
      simpa using h []
    intro acc
    induction ds generalizing acc with
    | nil => simp
    | cons d ds ih =>
      simp only [List.foldl_cons, List.filter_cons, ih]
      by_cases hA : min (sh.2 : ℚ) (sh.1 : ℚ) * 0.015 < d.y2 - d.y1 ∧
          d.y2 - d.y1 < min (sh.2 : ℚ) (sh.1 : ℚ) * 0.35
      · by_cases hB : (1.2 : ℚ) < (d.y2 - d.y1) / (d.x2 - d.x1) ∧
            (d.y2 - d.y1) / (d.x2 - d.x1) < 5.0
        · by_cases hC : (d.y1 + d.y2) / 2 < (sh.1 : ℚ) * 0.05
          · have : ¬srcKeep sh d := fun hk => hk.2.2 hC
            simp [hA, hB, hC, this]
          · have : srcKeep sh d := ⟨hA, hB, hC⟩
            simp [hA, hB, hC, this]
        · have : ¬srcKeep sh d := fun hk => hB hk.2.1
          simp [hA, hB, this]
      · have : ¬srcKeep sh d := fun hk => hA hk.1
        simp [hA, this]
  rw [hsrc]
  refine List.filter_congr fun d _ => ?_
  exact decide_eq_decide.mpr (srcKeep_iff_specFilterKeep sh d)

/-- C7: the Detection Filter keeps a detection if and only if its bbox
height lies strictly between 1.5% and 35% of min(frame width, frame
height), its height/width aspect lies strictly between 1.2 and 5.0, and
its vertical center is not within the top 5% of the frame; it preserves
the input order of kept detections (it is a sublist of the input) and an
empty input yields an empty output. -/
theorem detection_filter_rules (ds : List Det) (sh : ℕ × ℕ) :
    filter_players_in_field ds sh = ds.filter (fun d => decide (specFilterKeep sh d)) ∧
      (filter_players_in_field ds sh).Sublist ds ∧
      filter_players_in_field ([] : List Det) sh = [] := by
  refine ⟨filter_players_eq_filter ds sh, ?_, rfl⟩
  rw [filter_players_eq_filter ds sh]
  exact List.filter_sublist ds

/-- C8: the Detection Filter is idempotent: filtering its own output
again (with the same frame shape) returns that output unchanged. -/
theorem detection_filter_idempotent (ds : List Det) (sh : ℕ × ℕ) :
    filter_players_in_field (filter_players_in_field ds sh) sh =
      filter_players_in_field ds sh := by
  rw [filter_players_eq_filter ds sh, filter_players_eq_filter, List.filter_filter]
  exact List.filter_congr fun d _ => by cases h : decide (specFilterKeep sh d) <;> simp [h]

/-- C6: the tracker is a pure function of its configuration and the
sequence of filtered detection lists: two independent instances with
equal configurations fed equal update sequences return identical
sequences of (track id, bbox, confidence) lists and identical final
registries. -/
theorem tracker_deterministic (cfg1 cfg2 : Config) (dss1 dss2 : List (List Det))
    (hc : cfg1 = cfg2) (hd : dss1 = dss2) :
    runTrackerFrom cfg1 initTracker dss1 = runTrackerFrom cfg2 initTracker dss2 := by
  rw [hc, hd]

/-- Witness for C6 at a concrete configuration and input sequence. -/
theorem tracker_deterministic_witness :
    runTrackerFrom cfg0 initTracker [[dA, dB], []] =
      runTrackerFrom cfg0 initTracker [[dA, dB], []] :=
  tracker_deterministic cfg0 cfg0 [[dA, dB], []] [[dA, dB], []] rfl rfl

/-! Greedy association: structural lemmas about the single-pass walk. -/

/-- Along the walk, the claimed-detections set is exactly the reversed
list of accepted detection indices. -/
theorem greedy_dets_eq (cfg : Config) :
    ∀ (ps : List Pair) (g : GreedyState),
      g.assignedDets = (g.accepted.map Pair.detIdx).reverse →
      (ps.foldl (greedyStep cfg) g).assignedDets =
        ((ps.foldl (greedyStep cfg) g).accepted.map Pair.detIdx).reverse := by
  intro ps
  induction ps with
  | nil => intro g h; simpa using h
  | cons p ps ih =>
    intro g h
    simp only [List.foldl_cons]
    refine ih _ ?_
    unfold greedyStep
    split
    · simp [h]
    · exact h

/-- Along the walk, the claimed-tracks set is exactly the reversed list
of accepted track indices. -/
theorem greedy_trackIdxs_eq (cfg : Config) :
    ∀ (ps : List Pair) (g : GreedyState),
      g.assignedTrackIdxs = (g.accepted.map Pair.trackIdx).reverse →
      (ps.foldl (greedyStep cfg) g).assignedTrackIdxs =
        ((ps.foldl (greedyStep cfg) g).accepted.map Pair.trackIdx).reverse := by
  intro ps
  induction ps with
  | nil => intro g h; simpa using h
  | cons p ps ih =>
    intro g h
    simp only [List.foldl_cons]
    refine ih _ ?_
    unfold greedyStep
    split
    · simp [h]
    · exact h

/-- The pairs accepted by the walk extend the initial accepted list by a
sublist of the walked pair list (single pass, no backtracking). -/
theorem greedy_accepted_extends (cfg : Config) :
    ∀ (ps : List Pair) (g : GreedyState),
      ∃ l, (ps.foldl (greedyStep cfg) g).accepted = g.accepted ++ l ∧ l.Sublist ps := by
  intro ps
  induction ps with
  | nil => intro g; exact ⟨[], by simp⟩
  | cons p ps ih =>
    intro g
    simp only [List.foldl_cons]
    unfold greedyStep
    split
    · obtain ⟨l, hl, hs⟩ := ih ⟨p.detIdx :: g.assignedDets, p.trackIdx :: g.assignedTrackIdxs,
        g.accepted ++ [p]⟩
      exact ⟨p :: l, by simpa using hl, List.Sublist.cons₂ p hs⟩
    · obtain ⟨l, hl, hs⟩ := ih g
      exact ⟨l, hl, List.Sublist.cons p hs⟩

/-- Every pair accepted during the walk (beyond the initial state) passed
the strict distance gate. -/
theorem greedy_accepted_close (cfg : Config) :
    ∀ (ps : List Pair) (g : GreedyState) (p : Pair),
      p ∈ (ps.foldl (greedyStep cfg) g).accepted →
      p ∈ g.accepted ∨ distLt p.d2 cfg.maxDistance := by
  intro ps
  induction ps with
  | nil => intro g p h; exact Or.inl h
  | cons q ps ih =>
    intro g p h
    simp only [List.foldl_cons] at h
    unfold greedyStep at h
    split at h
    · rename_i hcond
      rcases ih _ p h with hin | hd
      · rcases List.mem_append.mp hin with hin | hin
        · exact Or.inl hin
        · rcases List.mem_singleton.mp hin with rfl
          exact Or.inr hcond.2.2
      · exact Or.inr hd
    · exact ih g p h

/-- The claimed-detections set stays duplicate-free along the walk. -/
theorem greedy_dets_nodup (cfg : Config) :
    ∀ (ps : List Pair) (g : GreedyState),
      g.assignedDets.Nodup → (ps.foldl (greedyStep cfg) g).assignedDets.Nodup := by
  intro ps
  induction ps with
  | nil => intro g h; exact h
  | cons p ps ih =>
    intro g h
    simp only [List.foldl_cons]
    refine ih _ ?_
    unfold greedyStep
    split
    · rename_i hacc
      exact List.Nodup.cons hacc.1 h
    · exact h

/-- The claimed-tracks set stays duplicate-free along the walk. -/
theorem greedy_trackIdxs_nodup (cfg : Config) :
    ∀ (ps : List Pair) (g : GreedyState),
      g.assignedTrackIdxs.Nodup → (ps.foldl (greedyStep cfg) g).assignedTrackIdxs.Nodup := by
  intro ps
  induction ps with
  | nil => intro g h; exact h
  | cons p ps ih =>
    intro g h
    simp only [List.foldl_cons]
    refine ih _ ?_
    unfold greedyStep
    split
    · rename_i hacc
      exact List.Nodup.cons hacc.2.1 h
    · exact h

/-- The claimed sets only grow along the walk. -/
theorem greedy_mono (cfg : Config) :
    ∀ (ps : List Pair) (g : GreedyState),
      (∀ x ∈ g.assignedDets, x ∈ (ps.foldl (greedyStep cfg) g).assignedDets) ∧
        ∀ x ∈ g.assignedTrackIdxs, x ∈ (ps.foldl (greedyStep cfg) g).assignedTrackIdxs := by
  intro ps
  induction ps with
  | nil => intro g; exact ⟨fun x h => h, fun x h => h⟩
  | cons p ps ih =>
    intro g
    simp only [List.foldl_cons]
    unfold greedyStep
    split
    · refine ⟨fun x h => (ih _).1 x (List.mem_cons_of_mem _ h),
        fun x h => (ih _).2 x (List.mem_cons_of_mem _ h)⟩
    · exact ih g

/-- Greedy maximality: after the walk, every walked pair within the
distance gate has its detection or its track claimed. -/
theorem greedy_maximal (cfg : Config) :
    ∀ (ps : List Pair) (g : GreedyState) (p : Pair),
      p ∈ ps → distLt p.d2 cfg.maxDistance →
      p.detIdx ∈ (ps.foldl (greedyStep cfg) g).assignedDets ∨
        p.trackIdx ∈ (ps.foldl (greedyStep cfg) g).assignedTrackIdxs := by
  intro ps
  induction ps with
  | nil => intro g p h; exact absurd h (List.not_mem_nil p)
  | cons q ps ih =>
    intro g p hp hd
    rcases List.mem_cons.mp hp with rfl | hp
    · simp only [List.foldl_cons]
      unfold greedyStep
      split
      · exact Or.inl ((greedy_mono cfg ps _).1 _ (List.mem_cons_self _ _))
      · rename_i hrej
        rcases Decidable.not_and_iff_or_not.mp hrej with h1 | h23
        · exact Or.inl ((greedy_mono cfg ps g).1 _ (Decidable.not_not.mp h1))
        · rcases Decidable.not_and_iff_or_not.mp h23 with h2 | h3
          · exact Or.inr ((greedy_mono cfg ps g).2 _ (Decidable.not_not.mp h2))
          · exact absurd hd h3
    · exact ih _ p hp hd

/-- C5: `PlayerTracker.update` associates detections to tracks by sorting
all (detection, track) pairs by ascending center distance and walking the
sorted list once: the walked list is sorted by distance and is a
permutation of all pairs; the accepted pairings form a sublist of the
walk order (single pass, no backtracking); every accepted pairing is
strictly within the association distance; no detection and no track is
claimed twice; and every pair within the distance gate whose detection
and track are both unclaimed at the end would have been accepted — so
acceptance happens exactly when neither side is claimed and the distance
gate holds. (Distances are represented squared; `pairLE` and `distLt`
are the distance order and gate on squared values.) -/
theorem tracker_greedy_association (cfg : Config) (ds : List Det) (ts : List (ℕ × Track)) :
    List.Sorted pairLE (sortedPairs ds ts) ∧
      (sortedPairs ds ts).Perm (allPairs 0 ds ts) ∧
      ((matchPhase cfg ds ts).accepted).Sublist (sortedPairs ds ts) ∧
      (∀ p ∈ (matchPhase cfg ds ts).accepted, distLt p.d2 cfg.maxDistance) ∧
      ((matchPhase cfg ds ts).accepted.map Pair.detIdx).Nodup ∧
      ((matchPhase cfg ds ts).accepted.map Pair.trackIdx).Nodup ∧
      ∀ p ∈ sortedPairs ds ts, distLt p.d2 cfg.maxDistance →
        p.detIdx ∈ (matchPhase cfg ds ts).accepted.map Pair.detIdx ∨
          p.trackIdx ∈ (matchPhase cfg ds ts).accepted.map Pair.trackIdx := by
  have hdets := greedy_dets_eq cfg (sortedPairs ds ts) ⟨[], [], []⟩ rfl
  have htrks := greedy_trackIdxs_eq cfg (sortedPairs ds ts) ⟨[], [], []⟩ rfl
  refine ⟨List.sorted_insertionSort pairLE (allPairs 0 ds ts),
    List.perm_insertionSort pairLE (allPairs 0 ds ts), ?_, ?_, ?_, ?_, ?_⟩
  · obtain ⟨l, hl, hs⟩ := greedy_accepted_extends cfg (sortedPairs ds ts) ⟨[], [], []⟩
    show (runGreedy cfg (sortedPairs ds ts)).accepted.Sublist _
    unfold runGreedy
    rw [hl]
    simpa using hs
  · intro p hp
    rcases greedy_accepted_close cfg (sortedPairs ds ts) ⟨[], [], []⟩ p hp with h | h
    · exact absurd h (List.not_mem_nil p)
    · exact h
  · have := greedy_dets_nodup cfg (sortedPairs ds ts) ⟨[], [], []⟩ List.nodup_nil
    rw [hdets] at this
    exact List.nodup_reverse.mp this
  · have := greedy_trackIdxs_nodup cfg (sortedPairs ds ts) ⟨[], [], []⟩ List.nodup_nil
    rw [htrks] at this
    exact List.nodup_reverse.mp this
  · intro p hp hd
    rcases greedy_maximal cfg (sortedPairs ds ts) ⟨[], [], []⟩ p hp hd with h | h
    · rw [hdets] at h
      exact Or.inl (List.mem_reverse.mp h)
    · rw [htrks] at h
      exact Or.inr (List.mem_reverse.mp h)

/-! Well-formedness of the candidate pair list. -/

/-- Every pair produced for one detection records that detection and a
real registry entry at its track index. -/
theorem trackPairs_mem (i : ℕ) (d : Det) :
    ∀ (ts : List (ℕ × Track)) (j : ℕ) (p : Pair), p ∈ trackPairs i d j ts →
      p.detIdx = i ∧ p.det = d ∧
        ∃ k, ∃ hk : k < ts.length, p.trackIdx = j + k ∧ (ts.get ⟨k, hk⟩).1 = p.trackId := by
  intro ts
  induction ts with
  | nil => intro j p h; exact absurd h (List.not_mem_nil p)
  | cons it ts ih =>
    intro j p h
    rcases List.mem_cons.mp h with rfl | h
    · exact ⟨rfl, rfl, 0, by simp, by simp, by simp⟩
    · obtain ⟨h1, h2, k, hk, h3, h4⟩ := ih (j + 1) p h
      refine ⟨h1, h2, k + 1, by simpa using hk, by omega, ?_⟩
      simpa using h4

/-- Every candidate pair has its detection index in range and its track
id equal to the registry key at its track index. -/
theorem allPairs_mem :
    ∀ (ds : List Det) (i : ℕ) (ts : List (ℕ × Track)) (p : Pair), p ∈ allPairs i ds ts →
      (i ≤ p.detIdx ∧ p.detIdx < i + ds.length) ∧
        ∃ hk : p.trackIdx < ts.length, (ts.get ⟨p.trackIdx, hk⟩).1 = p.trackId := by
  intro ds
  induction ds with
  | nil => intro i ts p h; exact absurd h (List.not_mem_nil p)
  | cons d ds ih =>
    intro i ts p h
    rcases List.mem_append.mp h with h | h
    · obtain ⟨h1, _, k, hk, h3, h4⟩ := trackPairs_mem i d ts 0 p h
      refine ⟨⟨by omega, by simp; omega⟩, ?_⟩
      have : p.trackIdx = k := by omega
      subst this
      exact ⟨hk, h4⟩
    · obtain ⟨⟨h1, h2⟩, hk⟩ := ih (i + 1) ts p h
      exact ⟨⟨by omega, by simp; omega⟩, hk⟩

/-- `allPairs_mem` transported along the sort. -/
theorem sortedPairs_mem (ds : List Det) (ts : List (ℕ × Track)) (p : Pair)
    (h : p ∈ sortedPairs ds ts) :
    p.detIdx < ds.length ∧
      ∃ hk : p.trackIdx < ts.length, (ts.get ⟨p.trackIdx, hk⟩).1 = p.trackId := by
  have hmem : p ∈ allPairs 0 ds ts :=
    (List.perm_insertionSort pairLE (allPairs 0 ds ts)).mem_iff.mp h
  obtain ⟨⟨_, h2⟩, hk⟩ := allPairs_mem ds 0 ts p hmem
  exact ⟨by simpa using h2, hk⟩

/-! Registry phase lemmas. -/

/-- Overwriting matched tracks never changes the key list. -/
theorem applyMatches_keys :
    ∀ (as : List Assign) (ts : List (ℕ × Track)),
      (applyMatches ts as).map Prod.fst = ts.map Prod.fst := by
  intro as
  induction as with
  | nil => intro ts; rfl
  | cons a as ih =>
    intro ts
    show (applyMatches (ts.map _) as).map Prod.fst = _
    rw [ih]
    rw [List.map_map]
    refine List.map_congr_left fun it _ => ?_
    by_cases h : it.1 = a.trackId <;> simp [h]

/-- One overwrite step of the matched-track loop. -/
def repOne (a : Assign) (ts : List (ℕ × Track)) : List (ℕ × Track) :=
  ts.map (fun it => if it.1 = a.trackId then (it.1, mkTrack a.det) else it)

/-- The matched-track loop processes its assignments head first. -/
theorem applyMatches_cons (a : Assign) (as : List Assign) (ts : List (ℕ × Track)) :
    applyMatches ts (a :: as) = applyMatches (repOne a ts) as := rfl

/-- Membership in one overwrite step. -/
theorem repOne_mem (a : Assign) (ts : List (ℕ × Track)) (it : ℕ × Track)
    (h : it ∈ repOne a ts) :
    (it.1 = a.trackId ∧ it.2 = mkTrack a.det) ∨ (it.1 ≠ a.trackId ∧ it ∈ ts) := by
  obtain ⟨it0, hit0, heq⟩ := List.mem_map.mp h
  by_cases h0 : it0.1 = a.trackId
  · rw [if_pos h0] at heq
    rw [← heq]
    exact Or.inl ⟨h0, rfl⟩
  · rw [if_neg h0] at heq
    rw [← heq]
    exact Or.inr ⟨h0, hit0⟩

/-- After overwriting matched tracks, an entry whose key was matched
holds a freshly built track, and an entry whose key was not matched is an
untouched entry of the input registry. -/
theorem applyMatches_mem :
    ∀ (as : List Assign) (ts : List (ℕ × Track)), ∀ it ∈ applyMatches ts as,
      (it.1 ∈ as.map Assign.trackId → ∃ d, it.2 = mkTrack d) ∧
        (it.1 ∉ as.map Assign.trackId → it ∈ ts) := by
  intro as
  induction as with
  | nil => intro ts it h; exact ⟨fun hm => absurd hm (by simp), fun _ => h⟩
  | cons a as ih =>
    intro ts it h
    rw [applyMatches_cons] at h
    have step := ih (repOne a ts) it h
    constructor
    · intro hm
      rw [List.map_cons] at hm
      by_cases hin : it.1 ∈ as.map Assign.trackId
      · exact step.1 hin
      · have hts := step.2 hin
        rcases repOne_mem a ts it hts with ⟨_, hv⟩ | ⟨hne, _⟩
        · exact ⟨a.det, hv⟩
        · rcases List.mem_cons.mp hm with he | hm2
          · exact absurd he hne
          · exact absurd hm2 hin
    · intro hm
      rw [List.map_cons] at hm
      have hm1 : it.1 ≠ a.trackId := fun he => hm (by rw [he]; exact List.mem_cons_self _ _)
      have hm2 : it.1 ∉ as.map Assign.trackId := fun he => hm (List.mem_cons_of_mem _ he)
      have hts := step.2 hm2
      rcases repOne_mem a ts it hts with ⟨he, _⟩ | ⟨_, hin⟩
      · exact absurd he hm1
      · exact hin

/-- In a registry with duplicate-free keys, a key determines its entry. -/
theorem nodup_key_eq :
    ∀ (ts : List (ℕ × Track)), (ts.map Prod.fst).Nodup →
      ∀ {i : ℕ} {t t2 : Track}, (i, t) ∈ ts → (i, t2) ∈ ts → t = t2 := by
  intro ts
  induction ts with
  | nil => intro _ i t t2 h; exact absurd h (List.not_mem_nil _)
  | cons it ts ih =>
    intro hnd i t t2 h1 h2
    have hnd2 := hnd
    rw [List.map_cons, List.nodup_cons] at hnd2
    rcases List.mem_cons.mp h1 with he1 | h1 <;> rcases List.mem_cons.mp h2 with he2 | h2
    · rw [← he1] at he2
      exact (Prod.mk.injEq _ _ _ _).mp he2.symm |>.2
    · exfalso
      refine hnd2.1 ?_
      rw [← he1]
      exact List.mem_map.mpr ⟨(i, t2), h2, rfl⟩
    · exfalso
      refine hnd2.1 ?_
      rw [← he2]
      exact List.mem_map.mpr ⟨(i, t), h1, rfl⟩
    · exact ih hnd2.2 h1 h2

/-- The created ids and keys of the new-track phase are a contiguous run
starting at the incoming `next_id`, and the final `next_id` sits right
after that run. -/
theorem addNewGo_ids (claimed : List ℕ) :
    ∀ (ds : List Det) (nid i : ℕ),
      ∃ k, (addNewGo claimed nid i ds).2.2 = nid + k ∧
        ((addNewGo claimed nid i ds).2.1).map Assign.trackId = List.range' nid k ∧
        ((addNewGo claimed nid i ds).1).map Prod.fst = List.range' nid k := by
  intro ds
  induction ds with
  | nil => intro nid i; exact ⟨0, rfl, rfl, rfl⟩
  | cons d ds ih =>
    intro nid i
    by_cases hc : i ∈ claimed
    · obtain ⟨k, h1, h2, h3⟩ := ih nid (i + 1)
      refine ⟨k, ?_, ?_, ?_⟩ <;> simp only [addNewGo, if_pos hc]
      · exact h1
      · exact h2
      · exact h3
    · obtain ⟨k, h1, h2, h3⟩ := ih (nid + 1) (i + 1)
      refine ⟨k + 1, ?_, ?_, ?_⟩ <;> simp only [addNewGo, if_neg hc]
      · show (addNewGo claimed (nid + 1) (i + 1) ds).2.2 = nid + (k + 1)
        omega
      · show nid :: ((addNewGo claimed (nid + 1) (i + 1) ds).2.1).map Assign.trackId = _
        rw [h2, List.range'_succ]
      · show nid :: ((addNewGo claimed (nid + 1) (i + 1) ds).1).map Prod.fst = _
        rw [h3, List.range'_succ]

/-- Every new registry entry holds a freshly built track. -/
theorem addNewGo_vals (claimed : List ℕ) :
    ∀ (ds : List Det) (nid i : ℕ), ∀ it ∈ (addNewGo claimed nid i ds).1,
      ∃ d, it.2 = mkTrack d := by
  intro ds
  induction ds with
  | nil => intro nid i it h; exact absurd h (List.not_mem_nil it)
  | cons d ds ih =>
    intro nid i it h
    by_cases hc : i ∈ claimed
    · simp only [addNewGo, if_pos hc] at h
      exact ih nid (i + 1) it h
    · simp only [addNewGo, if_neg hc] at h
      rcases List.mem_cons.mp h with rfl | h
      · exact ⟨d, rfl⟩
      · exact ih (nid + 1) (i + 1) it h

/-- The new-track phase creates exactly one assignment per unclaimed
detection index. -/
theorem addNewGo_length (claimed : List ℕ) :
    ∀ (ds : List Det) (nid i : ℕ),
      ((addNewGo claimed nid i ds).2.1).length =
        ((List.range' i ds.length).filter (fun j => decide (j ∉ claimed))).length := by
  intro ds
  induction ds with
  | nil => intro nid i; rfl
  | cons d ds ih =>
    intro nid i
    have hr : List.range' i (d :: ds).length = i :: List.range' (i + 1) ds.length := by
      rw [List.length_cons, List.range'_succ]
    rw [hr]
    by_cases hc : i ∈ claimed
    · simp only [addNewGo, if_pos hc, List.filter_cons]
      have : (decide (i ∉ claimed)) = false := by simpa using hc
      rw [this]
      simp only [Bool.false_eq_true, if_false]
      exact ih nid (i + 1)
    · simp only [addNewGo, if_neg hc, List.filter_cons]
      have : (decide (i ∉ claimed)) = true := by simpa using hc
      rw [this]
      simp only [if_true, List.length_cons]
      rw [ih (nid + 1) (i + 1)]

/-- A successful `mapM` over `Option` produces one output per input. -/
theorem optionMapM_length {α β : Type} (f : α → Option β) :
    ∀ (l : List α) (r : List β), l.mapM f = some r → r.length = l.length := by
  intro l
  induction l with
  | nil =>
    intro r h
    simp only [List.mapM_nil, pure, Option.some.injEq] at h
    rw [← h]
    rfl
  | cons a l ih =>
    intro r h
    rw [List.mapM_cons] at h
    cases hf : f a with
    | none => rw [hf] at h; simp at h
    | some b =>
      rw [hf] at h
      cases hl : l.mapM f with
      | none => rw [hl] at h; simp at h
      | some bs =>
        rw [hl] at h
        have hr : b :: bs = r := by simpa using h
        rw [← hr, List.length_cons, List.length_cons, ih bs hl]

/-- Every output of a successful `mapM` over `Option` comes from some
input. -/
theorem optionMapM_mem {α β : Type} (f : α → Option β) :
    ∀ (l : List α) (r : List β), l.mapM f = some r → ∀ b ∈ r, ∃ a ∈ l, f a = some b := by
  intro l
  induction l with
  | nil =>
    intro r h b hb
    simp only [List.mapM_nil, pure, Option.some.injEq] at h
    rw [← h] at hb
    exact absurd hb (List.not_mem_nil b)
  | cons a l ih =>
    intro r h b hb
    rw [List.mapM_cons] at h
    cases hf : f a with
    | none => rw [hf] at h; simp at h
    | some b0 =>
      rw [hf] at h
      cases hl : l.mapM f with
      | none => rw [hl] at h; simp at h
      | some bs =>
        rw [hl] at h
        have hr : b0 :: bs = r := by simpa using h
        rw [← hr] at hb
        rcases List.mem_cons.mp hb with rfl | hb
        · exact ⟨a, List.mem_cons_self _ _, hf⟩
        · obtain ⟨a2, ha2, hfa2⟩ := ih bs hl b hb
          exact ⟨a2, List.mem_cons_of_mem _ ha2, hfa2⟩

/-- A successful `mapM` over `Option` maps projections pointwise: if
every success of `f` carries its input's tag, the output tags are the
input tags. -/
theorem optionMapM_map {α β γ : Type} (f : α → Option β) (g : β → γ) (g2 : α → γ)
    (hpt : ∀ a b, f a = some b → g b = g2 a) :
    ∀ (l : List α) (r : List β), l.mapM f = some r → r.map g = l.map g2 := by
  intro l
  induction l with
  | nil =>
    intro r h
    simp only [List.mapM_nil, pure, Option.some.injEq] at h
    rw [← h]
    rfl
  | cons a l ih =>
    intro r h
    rw [List.mapM_cons] at h
    cases hf : f a with
    | none => rw [hf] at h; simp at h
    | some b =>
      rw [hf] at h
      cases hl : l.mapM f with
      | none => rw [hl] at h; simp at h
      | some bs =>
        rw [hl] at h
        have hr : b :: bs = r := by simpa using h
        rw [← hr, List.map_cons, List.map_cons, ih bs hl, hpt a b hf]

/-- The accepted pairings of the association phase form a sublist of the
sorted pair walk. -/
theorem matchPhase_accepted_sublist (cfg : Config) (ds : List Det) (ts : List (ℕ × Track)) :
    ((matchPhase cfg ds ts).accepted).Sublist (sortedPairs ds ts) := by
  obtain ⟨l, hl, hs⟩ := greedy_accepted_extends cfg (sortedPairs ds ts) ⟨[], [], []⟩
  show (runGreedy cfg (sortedPairs ds ts)).accepted.Sublist _
  unfold runGreedy
  rw [hl]
  simpa using hs

/-- The track ids of this frame's accepted pairings. -/
def acceptedIds (cfg : Config) (s : TrackerState) (ds : List Det) : List ℕ :=
  (matchPhase cfg ds s.tracks).accepted.map Pair.trackId

/-- `matchedIds` needs no empty-list guard: with no detections there are
no pairs and nothing is accepted. -/
theorem matchedIds_eq_acceptedIds (cfg : Config) (s : TrackerState) (ds : List Det) :
    matchedIds cfg s ds = acceptedIds cfg s ds := by
  unfold matchedIds acceptedIds
  rcases ds with _ | ⟨d, ds⟩
  · simp only [List.isEmpty_nil, if_true]
    rfl
  · rfl

/-- Every matched track id is a registry key. -/
theorem acceptedIds_sub_keys (cfg : Config) (s : TrackerState) (ds : List Det) :
    ∀ i ∈ acceptedIds cfg s ds, i ∈ s.tracks.map Prod.fst := by
  intro i hi
  obtain ⟨p, hp, rfl⟩ := List.mem_map.mp hi
  have hps : p ∈ sortedPairs ds s.tracks :=
    (matchPhase_accepted_sublist cfg ds s.tracks).subset hp
  obtain ⟨_, hk, hid⟩ := sortedPairs_mem ds s.tracks p hps
  rw [← hid]
  exact List.mem_map.mpr ⟨s.tracks.get ⟨p.trackIdx, hk⟩, List.get_mem s.tracks _ _, rfl⟩

/-- Matched track ids are pairwise distinct when the registry keys are. -/
theorem acceptedIds_nodup (cfg : Config) (s : TrackerState) (ds : List Det)
    (hkeys : (s.tracks.map Prod.fst).Nodup) : (acceptedIds cfg s ds).Nodup := by
  have hidx0 := greedy_trackIdxs_nodup cfg (sortedPairs ds s.tracks) ⟨[], [], []⟩ List.nodup_nil
  have heq := greedy_trackIdxs_eq cfg (sortedPairs ds s.tracks) ⟨[], [], []⟩ rfl
  rw [heq] at hidx0
  have hidx : ((matchPhase cfg ds s.tracks).accepted.map Pair.trackIdx).Nodup :=
    List.nodup_reverse.mp hidx0
  have hpidx : List.Pairwise (fun p q : Pair => p.trackIdx ≠ q.trackIdx)
      ((matchPhase cfg ds s.tracks).accepted) := List.pairwise_map.mp hidx
  have hpid : List.Pairwise (fun p q : Pair => p.trackId ≠ q.trackId)
      ((matchPhase cfg ds s.tracks).accepted) := by
    refine hpidx.imp_of_mem ?_
    intro p q hp hq hne hid
    obtain ⟨_, hkp, hip⟩ := sortedPairs_mem ds s.tracks p
      ((matchPhase_accepted_sublist cfg ds s.tracks).subset hp)
    obtain ⟨_, hkq, hiq⟩ := sortedPairs_mem ds s.tracks q
      ((matchPhase_accepted_sublist cfg ds s.tracks).subset hq)
    apply hne
    have hinj := List.nodup_iff_injective_get.mp hkeys
    have h1 : (s.tracks.map Prod.fst).get ⟨p.trackIdx, by simpa using hkp⟩ = p.trackId := by
      rw [List.get_map]
      exact hip
    have h2 : (s.tracks.map Prod.fst).get ⟨q.trackIdx, by simpa using hkq⟩ = q.trackId := by
      rw [List.get_map]
      exact hiq
    have hfin := hinj (show (s.tracks.map Prod.fst).get ⟨p.trackIdx, by simpa using hkp⟩ =
        (s.tracks.map Prod.fst).get ⟨q.trackIdx, by simpa using hkq⟩ by rw [h1, h2, hid])
    exact Fin.mk_eq_mk.mp hfin
  show List.Pairwise _ _
  exact List.pairwise_map.mpr hpid

/-- The full assignment id list splits into matched ids then new ids. -/
theorem assigns2_ids (cfg : Config) (s : TrackerState) (ds : List Det) :
    (assigns2Of cfg s ds).map Assign.trackId =
      acceptedIds cfg s ds ++ ((newPart cfg s ds).2.1).map Assign.trackId := by
  unfold assigns2Of
  rw [List.map_append]
  congr 1
  unfold matchAssigns acceptedIds
  rw [List.map_map]
  rfl

/-- The matched-assignment ids are the accepted pairing ids. -/
theorem matchAssigns_ids (cfg : Config) (s : TrackerState) (ds : List Det) :
    (matchAssigns cfg s ds).map Assign.trackId = acceptedIds cfg s ds := by
  unfold matchAssigns acceptedIds
  rw [List.map_map]
  rfl

/-- Contiguous-run facts about the new-track phase of one update. -/
theorem newPart_ids (cfg : Config) (s : TrackerState) (ds : List Det) :
    ∃ k, (newPart cfg s ds).2.2 = s.nextId + k ∧
      ((newPart cfg s ds).2.1).map Assign.trackId = List.range' s.nextId k ∧
      ((newPart cfg s ds).1).map Prod.fst = List.range' s.nextId k :=
  addNewGo_ids _ ds s.nextId 0

/-- Every key created by the new-track phase is at least the incoming
`next_id`. -/
theorem newPart_keys_ge (cfg : Config) (s : TrackerState) (ds : List Det) :
    ∀ j ∈ ((newPart cfg s ds).1).map Prod.fst, s.nextId ≤ j := by
  obtain ⟨k, _, _, h3⟩ := newPart_ids cfg s ds
  rw [h3]
  intro j hj
  obtain ⟨i, _, rfl⟩ := List.mem_range'.mp hj
  omega

/-- Every id created by the new-track phase is at least the incoming
`next_id`. -/
theorem newPart_assignIds_ge (cfg : Config) (s : TrackerState) (ds : List Det) :
    ∀ j ∈ ((newPart cfg s ds).2.1).map Assign.trackId, s.nextId ≤ j := by
  obtain ⟨k, _, h2, _⟩ := newPart_ids cfg s ds
  rw [h2]
  intro j hj
  obtain ⟨i, _, rfl⟩ := List.mem_range'.mp hj
  omega

/-- Key list of the registry after overwrite-and-append. -/
theorem ts2_keys (cfg : Config) (s : TrackerState) (ds : List Det) :
    (ts2Of cfg s ds).map Prod.fst =
      s.tracks.map Prod.fst ++ ((newPart cfg s ds).1).map Prod.fst := by
  unfold ts2Of
  rw [List.map_append, applyMatches_keys]

/-- Every entry of the overwritten-and-extended registry is either an
entry of the matched-overwrite part (its key an old registry key) or a
new-track entry (its key fresh), provided the old keys are below
`next_id`. -/
theorem ts2_entry (cfg : Config) (s : TrackerState) (ds : List Det)
    (hinv : StateInv s) :
    ∀ it ∈ ts2Of cfg s ds,
      (it ∈ applyMatches s.tracks (matchAssigns cfg s ds) ∧
          it.1 ∈ s.tracks.map Prod.fst) ∨
        (it ∈ (newPart cfg s ds).1 ∧ it.1 ∉ s.tracks.map Prod.fst) := by
  intro it hit
  rcases List.mem_append.mp hit with h | h
  · refine Or.inl ⟨h, ?_⟩
    have : it.1 ∈ (applyMatches s.tracks (matchAssigns cfg s ds)).map Prod.fst :=
      List.mem_map.mpr ⟨it, h, rfl⟩
    rw [applyMatches_keys] at this
    exact this
  · refine Or.inr ⟨h, fun hold => ?_⟩
    have hge : s.nextId ≤ it.1 :=
      newPart_keys_ge cfg s ds it.1 (List.mem_map.mpr ⟨it, h, rfl⟩)
    have hlt : it.1 < s.nextId := by
      obtain ⟨it0, hit0, he⟩ := List.mem_map.mp hold
      rw [← he]
      exact (hinv.2 it0 hit0).1
    omega

/-- An old key is among this frame's assignment ids exactly when it was
matched (new ids are all at least `next_id`). -/
theorem old_key_in_assigns (cfg : Config) (s : TrackerState) (ds : List Det)
    (hinv : StateInv s) (i : ℕ) (hold : i ∈ s.tracks.map Prod.fst) :
    (i ∈ (assigns2Of cfg s ds).map Assign.trackId ↔ i ∈ acceptedIds cfg s ds) := by
  rw [assigns2_ids]
  constructor
  · intro h
    rcases List.mem_append.mp h with h | h
    · exact h
    · exfalso
      have hge := newPart_assignIds_ge cfg s ds i h
      obtain ⟨it, hit, rfl⟩ := List.mem_map.mp hold
      have hlt := (hinv.2 it hit).1
      omega
  · intro h
    exact List.mem_append.mpr (Or.inl h)

/-- Every new-track registry entry holds a freshly built track. -/
theorem newPart_vals (cfg : Config) (s : TrackerState) (ds : List Det) :
    ∀ it ∈ (newPart cfg s ds).1, ∃ d, it.2 = mkTrack d :=
  addNewGo_vals _ ds s.nextId 0

/-- With no detections, the overwrite/create/age/remove pipeline
degenerates to the aging-and-removal of the empty-detections branch, so
both branches of `update` transform the registry identically. -/
theorem aged_eq_ts4_nil (cfg : Config) (s : TrackerState) :
    agedTracks cfg s.tracks = ts4Of cfg s [] := by
  unfold agedTracks ts4Of ts3Of
  congr 1
  have h2 : ts2Of cfg s [] = s.tracks := by
    show s.tracks ++ [] = s.tracks
    exact List.append_nil s.tracks
  rw [h2]
  refine List.map_congr_left fun it _ => ?_
  rw [if_neg]
  show it.1 ∈ ([] : List ℕ) → False
  exact List.not_mem_nil it.1

/-- Decomposition of a successful update: the new registry is the
four-phase pipeline result, the new `next_id` comes from the new-track
phase, and the returned tuples are the dict lookups of the assignment
ids (all three also hold for the empty-detections branch, where the
assignment list is empty and the pipeline degenerates to aging). -/
theorem update_parts (cfg : Config) (s : TrackerState) (ds : List Det)
    (outs : List Out) (s1 : TrackerState) (h : update cfg s ds = some (outs, s1)) :
    s1.tracks = ts4Of cfg s ds ∧ s1.nextId = (newPart cfg s ds).2.2 ∧
      (assigns2Of cfg s ds).mapM
        (fun a => (lookupTrack a.trackId (ts4Of cfg s ds)).map (mkOut a.trackId)) =
        some outs := by
  by_cases hemp : ds.isEmpty
  · have hds : ds = [] := List.isEmpty_iff.mp hemp
    subst hds
    rw [show update cfg s [] = some ([], ⟨agedTracks cfg s.tracks, s.nextId⟩) from rfl] at h
    have h2 := (Option.some.injEq _ _).mp h
    have houts : ([] : List Out) = outs := congrArg Prod.fst h2
    have hs1 : (⟨agedTracks cfg s.tracks, s.nextId⟩ : TrackerState) = s1 :=
      congrArg Prod.snd h2
    refine ⟨?_, ?_, ?_⟩
    · rw [← hs1]
      exact aged_eq_ts4_nil cfg s
    · rw [← hs1]
      rfl
    · rw [← houts]
      rfl
  · unfold update at h
    rw [if_neg hemp] at h
    obtain ⟨outs0, hmm, heq⟩ := Option.map_eq_some'.mp h
    have houts : outs0 = outs := congrArg Prod.fst heq
    have hs1 : (⟨ts4Of cfg s ds, (newPart cfg s ds).2.2⟩ : TrackerState) = s1 :=
      congrArg Prod.snd heq
    rw [← hs1, ← houts]
    exact ⟨rfl, rfl, hmm⟩

/-- Key lists are unchanged by the aging step. -/
theorem ts3_keys (cfg : Config) (s : TrackerState) (ds : List Det) :
    (ts3Of cfg s ds).map Prod.fst = (ts2Of cfg s ds).map Prod.fst := by
  unfold ts3Of
  rw [List.map_map]
  refine List.map_congr_left fun it _ => ?_
  simp only [Function.comp_apply]
  by_cases h : it.1 ∈ (assigns2Of cfg s ds).map Assign.trackId
  · rw [if_pos h]
  · rw [if_neg h]

/-- The removal step only drops entries. -/
theorem ts4_sublist_ts3 (cfg : Config) (s : TrackerState) (ds : List Det) :
    (ts4Of cfg s ds).Sublist (ts3Of cfg s ds) :=
  List.filter_sublist (ts3Of cfg s ds)

/-- Forward analysis of the post-update registry: every surviving entry
is within the removal bound and is a freshly matched track (counter 0), a
freshly created track (counter 0), or an aged old track (counter one more
than before). -/
theorem ts4_entry (cfg : Config) (s : TrackerState) (ds : List Det)
    (hinv : StateInv s) :
    ∀ it ∈ ts4Of cfg s ds,
      it.2.framesLost ≤ cfg.maxFramesLost ∧
        ((it.1 ∈ acceptedIds cfg s ds ∧ it.1 ∈ s.tracks.map Prod.fst ∧
            it.2.framesLost = 0) ∨
          (it.1 ∉ s.tracks.map Prod.fst ∧ it.2.framesLost = 0) ∨
          (∃ t0, (it.1, t0) ∈ s.tracks ∧ it.1 ∉ acceptedIds cfg s ds ∧
            it.2 = bumpLost t0)) := by
  intro it hit
  obtain ⟨hit3, hdec⟩ := List.mem_filter.mp hit
  refine ⟨of_decide_eq_true hdec, ?_⟩
  obtain ⟨it0, hit0, heq⟩ := List.mem_map.mp hit3
  rcases ts2_entry cfg s ds hinv it0 hit0 with ⟨hap, hold⟩ | ⟨hnw, hfresh⟩
  · by_cases hm : it0.1 ∈ acceptedIds cfg s ds
    · obtain ⟨d, hv⟩ := (applyMatches_mem (matchAssigns cfg s ds) s.tracks it0 hap).1
        (by rw [matchAssigns_ids]; exact hm)
      have haids : it0.1 ∈ (assigns2Of cfg s ds).map Assign.trackId := by
        rw [assigns2_ids]
        exact List.mem_append.mpr (Or.inl hm)
      rw [if_pos haids] at heq
      rw [← heq]
      exact Or.inl ⟨hm, hold, by rw [hv]; rfl⟩
    · have hin := (applyMatches_mem (matchAssigns cfg s ds) s.tracks it0 hap).2
        (by rw [matchAssigns_ids]; exact hm)
      have haids : it0.1 ∉ (assigns2Of cfg s ds).map Assign.trackId := by
        rw [old_key_in_assigns cfg s ds hinv it0.1 hold]
        exact hm
      rw [if_neg haids] at heq
      rw [← heq]
      refine Or.inr (Or.inr ⟨it0.2, ?_, hm, rfl⟩)
      simpa using hin
  · obtain ⟨d, hv⟩ := newPart_vals cfg s ds it0 hnw
    have haids : it0.1 ∈ (assigns2Of cfg s ds).map Assign.trackId := by
      rw [assigns2_ids]
      refine List.mem_append.mpr (Or.inr ?_)
      obtain ⟨k, _, h2, h3⟩ := newPart_ids cfg s ds
      rw [h2, ← h3]
      exact List.mem_map.mpr ⟨it0, hnw, rfl⟩
    rw [if_pos haids] at heq
    rw [← heq]
    exact Or.inr (Or.inl ⟨hfresh, by rw [hv]; rfl⟩)

/-- Survival of an old track: if its would-be counter (0 when matched,
incremented otherwise) is within the bound, it is still registered after
the update. -/
theorem old_track_survives (cfg : Config) (s : TrackerState) (ds : List Det)
    (hinv : StateInv s) (i : ℕ) (t : Track) (hmem : (i, t) ∈ s.tracks)
    (hle : (if i ∈ acceptedIds cfg s ds then 0 else t.framesLost + 1) ≤
      cfg.maxFramesLost) :
    ∃ t2, (i, t2) ∈ ts4Of cfg s ds := by
  have hold : i ∈ s.tracks.map Prod.fst := List.mem_map.mpr ⟨(i, t), hmem, rfl⟩
  have hkey1 : i ∈ (applyMatches s.tracks (matchAssigns cfg s ds)).map Prod.fst := by
    rw [applyMatches_keys]
    exact hold
  obtain ⟨it1, hit1, hfst⟩ := List.mem_map.mp hkey1
  have hit1g : it1 ∈ ts2Of cfg s ds := List.mem_append.mpr (Or.inl hit1)
  by_cases hm : i ∈ acceptedIds cfg s ds
  · obtain ⟨d, hv⟩ := (applyMatches_mem (matchAssigns cfg s ds) s.tracks it1 hit1).1
      (by rw [matchAssigns_ids, hfst]; exact hm)
    have haids : it1.1 ∈ (assigns2Of cfg s ds).map Assign.trackId := by
      rw [assigns2_ids]
      refine List.mem_append.mpr (Or.inl ?_)
      rw [hfst]
      exact hm
    refine ⟨it1.2, ?_⟩
    have h3 : it1 ∈ ts3Of cfg s ds := by
      refine List.mem_map.mpr ⟨it1, hit1g, ?_⟩
      rw [if_pos haids]
    have h0 : it1.2.framesLost = 0 := by rw [hv]; rfl
    have h4 : it1 ∈ ts4Of cfg s ds := by
      refine List.mem_filter.mpr ⟨h3, decide_eq_true ?_⟩
      rw [h0]
      rw [if_pos hm] at hle
      exact hle
    rw [← hfst, Prod.mk.eta]
    exact h4
  · have hin := (applyMatches_mem (matchAssigns cfg s ds) s.tracks it1 hit1).2
      (by rw [matchAssigns_ids, hfst]; exact hm)
    have hval : it1.2 = t := by
      refine nodup_key_eq s.tracks hinv.1 ?_ hmem
      show (i, it1.2) ∈ s.tracks
      rw [← hfst]
      simpa using hin
    have haids : it1.1 ∉ (assigns2Of cfg s ds).map Assign.trackId := by
      rw [hfst, old_key_in_assigns cfg s ds hinv i hold]
      exact hm
    refine ⟨bumpLost it1.2, ?_⟩
    have h3 : (it1.1, bumpLost it1.2) ∈ ts3Of cfg s ds := by
      refine List.mem_map.mpr ⟨it1, hit1g, ?_⟩
      rw [if_neg haids]
    have h4 : (it1.1, bumpLost it1.2) ∈ ts4Of cfg s ds := by
      refine List.mem_filter.mpr ⟨h3, decide_eq_true ?_⟩
      show (bumpLost it1.2).framesLost ≤ cfg.maxFramesLost
      rw [if_neg hm] at hle
      rw [hval]
      exact hle
    rw [← hfst]
    exact h4

/-- One update preserves registry well-formedness. -/
theorem stateInv_step (cfg : Config) (s : TrackerState) (ds : List Det)
    (outs : List Out) (s1 : TrackerState) (hinv : StateInv s)
    (h : update cfg s ds = some (outs, s1)) : StateInv s1 := by
  obtain ⟨htracks, hnid, _⟩ := update_parts cfg s ds outs s1 h
  obtain ⟨k, hk, h2, h3⟩ := newPart_ids cfg s ds
  have hkeys2 : (ts2Of cfg s ds).map Prod.fst =
      s.tracks.map Prod.fst ++ List.range' s.nextId k := by
    rw [ts2_keys, h3]
  have hkeys2nd : ((ts2Of cfg s ds).map Prod.fst).Nodup := by
    rw [hkeys2]
    refine List.Nodup.append hinv.1 (List.nodup_range' _ _) ?_
    intro a ha ha2
    obtain ⟨it, hit, rfl⟩ := List.mem_map.mp ha
    obtain ⟨i, _, he⟩ := List.mem_range'.mp ha2
    have := (hinv.2 it hit).1
    omega
  have hsub : ((ts4Of cfg s ds).map Prod.fst).Sublist ((ts2Of cfg s ds).map Prod.fst) := by
    rw [← ts3_keys]
    exact List.Sublist.map Prod.fst (ts4_sublist_ts3 cfg s ds)
  constructor
  · rw [htracks]
    exact hkeys2nd.sublist hsub
  · intro it hit
    rw [htracks] at hit
    constructor
    · have hmem : it.1 ∈ (ts2Of cfg s ds).map Prod.fst :=
        hsub.subset (List.mem_map.mpr ⟨it, hit, rfl⟩)
      rw [hkeys2] at hmem
      rw [hnid, hk]
      rcases List.mem_append.mp hmem with hmem | hmem
      · obtain ⟨it0, hit0, he⟩ := List.mem_map.mp hmem
        have := (hinv.2 it0 hit0).1
        omega
      · obtain ⟨i, _, he⟩ := List.mem_range'.mp hmem
        omega
    · rcases (ts4_entry cfg s ds hinv it hit).2 with ⟨_, _, h0⟩ | ⟨_, h0⟩ | ⟨t0, hmem, _, hb⟩
      · omega
      · omega
      · have h5 : (0 : ℤ) ≤ t0.framesLost := (hinv.2 (it.1, t0) hmem).2
        rw [hb]
        show 0 ≤ t0.framesLost + 1
        omega

/-- Every reachable tracker state is well-formed. -/
theorem reachable_inv (cfg : Config) (s : TrackerState) (h : Reachable cfg s) :
    StateInv s := by
  induction h with
  | init =>
    constructor
    · exact List.nodup_nil
    · intro it hit
      exact absurd hit (List.not_mem_nil it)
  | step hr hu ih => exact stateInv_step _ _ _ _ _ ih hu

/-- The lost-counter contract of one update step from registry state `s`
to state `s1` on detection list `ds`: counters are nonnegative; a
surviving track's counter is 0 exactly when the track was matched this
frame or freshly created; an unmatched surviving track's counter grew by
exactly 1; newly created tracks start at 0; and an old track survives if
and only if its would-be counter is within `max_frames_lost`. -/
def LostCounterSpec (cfg : Config) (s s1 : TrackerState) (ds : List Det) : Prop :=
  (∀ it ∈ s1.tracks, 0 ≤ it.2.framesLost) ∧
    (∀ it ∈ s1.tracks, it.1 ∈ matchedIds cfg s ds → it.2.framesLost = 0) ∧
    (∀ it ∈ s1.tracks, it.2.framesLost = 0 →
      it.1 ∈ matchedIds cfg s ds ∨ it.1 ∉ s.tracks.map Prod.fst) ∧
    (∀ it ∈ s.tracks, ∀ it1 ∈ s1.tracks, it1.1 = it.1 →
      it.1 ∉ matchedIds cfg s ds → it1.2.framesLost = it.2.framesLost + 1) ∧
    (∀ it ∈ s1.tracks, it.1 ∉ s.tracks.map Prod.fst → it.2.framesLost = 0) ∧
    ∀ it ∈ s.tracks,
      ((∃ t2, (it.1, t2) ∈ s1.tracks) ↔
        (if it.1 ∈ matchedIds cfg s ds then 0 else it.2.framesLost + 1) ≤
          cfg.maxFramesLost)

/-- C3: for every reachable tracker state and every update call, each
live track's lost counter is nonnegative, is 0 exactly on tracks matched
to a detection this frame (or freshly created from one), is incremented
by exactly 1 on every unmatched track, and a track is removed from the
registry if and only if its resulting counter exceeds the configured
`max_frames_lost`. -/
theorem tracker_lost_counter (cfg : Config) (s : TrackerState) (ds : List Det)
    (outs : List Out) (s1 : TrackerState) (hr : Reachable cfg s)
    (h : update cfg s ds = some (outs, s1)) : LostCounterSpec cfg s s1 ds := by
  have hinv := reachable_inv cfg s hr
  have hinv1 := stateInv_step cfg s ds outs s1 hinv h
  obtain ⟨htracks, _, _⟩ := update_parts cfg s ds outs s1 h
  have hmids := matchedIds_eq_acceptedIds cfg s ds
  refine ⟨?_, ?_, ?_, ?_, ?_, ?_⟩
  · intro it hit
    exact (hinv1.2 it hit).2
  · intro it hit hm
    rw [htracks] at hit
    rw [hmids] at hm
    rcases (ts4_entry cfg s ds hinv it hit).2 with ⟨_, _, h0⟩ | ⟨_, h0⟩ | ⟨t0, _, hnm, _⟩
    · exact h0
    · exact h0
    · exact absurd hm hnm
  · intro it hit h0
    rw [htracks] at hit
    rw [hmids]
    rcases (ts4_entry cfg s ds hinv it hit).2 with ⟨hm, _, _⟩ | ⟨hf, _⟩ | ⟨t0, hmem, _, hb⟩
    · exact Or.inl hm
    · exact Or.inr hf
    · exfalso
      have hge : (0 : ℤ) ≤ t0.framesLost := (hinv.2 (it.1, t0) hmem).2
      have : it.2.framesLost = t0.framesLost + 1 := by rw [hb]; rfl
      omega
  · intro it hit it1 hit1 hkey hm
    rw [htracks] at hit1
    rw [hmids] at hm
    have hold : it.1 ∈ s.tracks.map Prod.fst := List.mem_map.mpr ⟨it, hit, rfl⟩
    rcases (ts4_entry cfg s ds hinv it1 hit1).2 with ⟨hm1, _, _⟩ | ⟨hf, _⟩ | ⟨t0, hmem, _, hb⟩
    · rw [hkey] at hm1
      exact absurd hm1 hm
    · rw [hkey] at hf
      exact absurd hold hf
    · rw [hkey] at hmem
      have ht0 : t0 = it.2 := by
        refine nodup_key_eq s.tracks hinv.1 hmem ?_
        simpa using hit
      rw [hb, ht0]
      rfl
  · intro it hit hf
    rw [htracks] at hit
    rcases (ts4_entry cfg s ds hinv it hit).2 with ⟨_, hold, _⟩ | ⟨_, h0⟩ | ⟨t0, hmem, _, _⟩
    · exact absurd hold hf
    · exact h0
    · exact absurd (List.mem_map.mpr ⟨(it.1, t0), hmem, rfl⟩) hf
  · intro it hit
    rw [htracks, hmids]
    constructor
    · rintro ⟨t2, hmem2⟩
      have hent := ts4_entry cfg s ds hinv (it.1, t2) hmem2
      rcases hent.2 with ⟨hm, _, h0⟩ | ⟨hf, _⟩ | ⟨t0, hmem0, hnm, hb⟩
      · rw [if_pos hm]
        have : (it.1, t2).2.framesLost = 0 := h0
        have hle := hent.1
        omega
      · have hf2 : it.1 ∉ s.tracks.map Prod.fst := hf
        exact absurd (List.mem_map.mpr ⟨it, hit, rfl⟩) hf2
      · rw [if_neg hnm]
        have ht0 : t0 = it.2 := by
          refine nodup_key_eq s.tracks hinv.1 hmem0 ?_
          simpa using hit
        have hle := hent.1
        have : (it.1, t2).2.framesLost = t0.framesLost + 1 := by rw [hb]; rfl
        rw [← ht0]
        omega
    · intro hle
      exact old_track_survives cfg s ds hinv it.1 it.2 (by simpa using hit) hle

/-- Witness for C3 at a concrete reachable state and detection list. -/
theorem tracker_lost_counter_witness :
    Reachable cfg0 initTracker ∧
      update cfg0 initTracker [dA] =
        some ([mkOut 1 (mkTrack dA)], ⟨[(1, mkTrack dA)], 2⟩) ∧
      LostCounterSpec cfg0 initTracker ⟨[(1, mkTrack dA)], 2⟩ [dA] :=
  ⟨Reachable.init, by decide,
    tracker_lost_counter cfg0 initTracker [dA] [mkOut 1 (mkTrack dA)]
      ⟨[(1, mkTrack dA)], 2⟩ Reachable.init (by decide)⟩

/-- The ids allocated by one update are a contiguous run from the old
`next_id` up to the new one. -/
theorem newIdsOf_facts (cfg : Config) (s : TrackerState) (ds : List Det) :
    ∃ k, newIdsOf cfg s ds = List.range' s.nextId k ∧
      (newPart cfg s ds).2.2 = s.nextId + k := by
  obtain ⟨k, hk, h2, _⟩ := newPart_ids cfg s ds
  by_cases hemp : ds.isEmpty
  · have hds : ds = [] := List.isEmpty_iff.mp hemp
    subst hds
    exact ⟨0, rfl, rfl⟩
  · refine ⟨k, ?_, hk⟩
    unfold newIdsOf
    rw [if_neg hemp]
    exact h2

/-- Unfolding of the allocation trace on a nonempty frame list. -/
theorem runAlloc_cons (cfg : Config) (s : TrackerState) (ds : List Det)
    (rest : List (List Det)) :
    runAlloc cfg s (ds :: rest) =
      match update cfg s ds with
      | none => none
      | some (_, s2) =>
        (runAlloc cfg s2 rest).map (fun r => (newIdsOf cfg s ds ++ r.1, r.2)) := rfl

/-- Allocation facts along a whole run: the allocated ids are strictly
increasing, all in the window between the starting and final `next_id`,
and `next_id` never decreases. -/
theorem runAlloc_general (cfg : Config) :
    ∀ (dss : List (List Det)) (s : TrackerState) (ids : List ℕ) (s1 : TrackerState),
      runAlloc cfg s dss = some (ids, s1) →
      List.Pairwise (· < ·) ids ∧ (∀ i ∈ ids, s.nextId ≤ i ∧ i < s1.nextId) ∧
        s.nextId ≤ s1.nextId := by
  intro dss
  induction dss with
  | nil =>
    intro s ids s1 h
    rw [show runAlloc cfg s [] = some ([], s) from rfl] at h
    have h2 := (Option.some.injEq _ _).mp h
    have hids : ([] : List ℕ) = ids := congrArg Prod.fst h2
    have hs : s = s1 := congrArg Prod.snd h2
    rw [← hids, ← hs]
    exact ⟨List.Pairwise.nil, fun i hi => absurd hi (List.not_mem_nil i), le_refl _⟩
  | cons ds rest ih =>
    intro s ids s1 h
    rw [runAlloc_cons] at h
    cases hupd : update cfg s ds with
    | none => rw [hupd] at h; exact absurd h (by simp)
    | some p =>
      rw [hupd] at h
      obtain ⟨r, hr, heq⟩ := Option.map_eq_some'.mp h
      have hids : newIdsOf cfg s ds ++ r.1 = ids := congrArg Prod.fst heq
      have hs1 : r.2 = s1 := congrArg Prod.snd heq
      obtain ⟨hpw, hbound, hmono⟩ := ih p.2 r.1 r.2 hr
      obtain ⟨k, hnew, hnid⟩ := newIdsOf_facts cfg s ds
      have hp2 : p.2.nextId = s.nextId + k := by
        obtain ⟨_, hn, _⟩ := update_parts cfg s ds p.1 p.2 (by rw [hupd])
        rw [hn, hnid]
      rw [← hids, ← hs1]
      refine ⟨?_, ?_, by omega⟩
      · rw [List.pairwise_append]
        refine ⟨by rw [hnew]; exact List.pairwise_lt_range' _ _, hpw, ?_⟩
        intro a ha b hb
        rw [hnew] at ha
        obtain ⟨i, hik, rfl⟩ := List.mem_range'.mp ha
        have hbb := (hbound b hb).1
        omega
      · intro i hi
        rcases List.mem_append.mp hi with hi | hi
        · rw [hnew] at hi
          obtain ⟨j, hjk, rfl⟩ := List.mem_range'.mp hi
          constructor
          · omega
          · have h3 : p.2.nextId ≤ r.2.nextId := hmono
            omega
        · obtain ⟨h1, h2⟩ := hbound i hi
          constructor
          · omega
          · exact h2

/-- C4: the track ids allocated over the lifetime of one tracker
instance are strictly increasing in creation order, hence pairwise
distinct: no id is ever assigned to a new track again, even after the
track that held it has been removed. -/
theorem tracker_id_allocation (cfg : Config) (dss : List (List Det)) (ids : List ℕ)
    (s1 : TrackerState) (h : runAlloc cfg initTracker dss = some (ids, s1)) :
    List.Pairwise (· < ·) ids ∧ ids.Nodup := by
  obtain ⟨hpw, _, _⟩ := runAlloc_general cfg dss initTracker ids s1 h
  exact ⟨hpw, hpw.imp ne_of_lt⟩

/-- Witness for C4 on a concrete run allocating ids 1 and 2. -/
theorem tracker_id_allocation_witness :
    runAlloc cfg0 initTracker [[dA, dB]] =
        some ([1, 2], ⟨[(1, mkTrack dA), (2, mkTrack dB)], 3⟩) ∧
      List.Pairwise (· < ·) [1, 2] ∧ ([1, 2] : List ℕ).Nodup :=
  ⟨by decide,
    tracker_id_allocation cfg0 [[dA, dB]] [1, 2]
      ⟨[(1, mkTrack dA), (2, mkTrack dB)], 3⟩ (by decide)⟩

/-- A successful dict lookup returns a registry entry. -/
theorem lookupTrack_mem :
    ∀ (l : List (ℕ × Track)) (i : ℕ) (t : Track),
      lookupTrack i l = some t → (i, t) ∈ l := by
  intro l
  induction l with
  | nil => intro i t h; exact absurd h (by simp [lookupTrack])
  | cons it l ih =>
    intro i t h
    unfold lookupTrack at h
    by_cases he : it.1 = i
    · rw [if_pos he] at h
      have ht := (Option.some.injEq _ _).mp h
      rw [← he, ← ht]
      exact List.mem_cons.mpr (Or.inl (Prod.mk.eta).symm)
    · rw [if_neg he] at h
      exact List.mem_cons.mpr (Or.inr (ih i t h))

/-- Counting a duplicate-free subset inside an initial segment. -/
theorem countInRange :
    ∀ (n : ℕ) (A : List ℕ), A.Nodup → (∀ a ∈ A, a < n) →
      ((List.range n).filter (fun j => decide (j ∈ A))).length = A.length := by
  intro n
  induction n with
  | zero =>
    intro A _ hlt
    have hA : A = [] := List.eq_nil_iff_forall_not_mem.mpr fun a ha => by
      have := hlt a ha
      omega
    rw [hA]
    rfl
  | succ n ih =>
    intro A hnd hlt
    rw [List.range_succ, List.filter_append]
    by_cases hn : n ∈ A
    · have hftail : List.filter (fun j => decide (j ∈ A)) [n] = [n] := by
        simp [hn]
      rw [hftail]
      have hcongr : List.filter (fun j => decide (j ∈ A)) (List.range n) =
          List.filter (fun j => decide (j ∈ A.erase n)) (List.range n) := by
        refine List.filter_congr fun j hj => ?_
        have hjn : j ≠ n := by
          have := List.mem_range.mp hj
          omega
        have : j ∈ A ↔ j ∈ A.erase n := by
          rw [List.Nodup.mem_erase_iff hnd]
          exact ⟨fun h => ⟨hjn, h⟩, fun h => h.2⟩
        simp [this]
      rw [hcongr, List.length_append]
      have hih := ih (A.erase n) (hnd.erase n) ?hlt
      case hlt =>
        intro a ha
        obtain ⟨hane, haA⟩ := (List.Nodup.mem_erase_iff hnd).mp ha
        have := hlt a haA
        omega
      rw [hih]
      have herase := List.length_erase_of_mem hn
      have hpos : 0 < A.length := List.length_pos_of_mem hn
      simp only [List.length_cons, List.length_nil]
      omega
    · have hftail : List.filter (fun j => decide (j ∈ A)) [n] = [] := by
        simp [hn]
      rw [hftail, List.append_nil]
      refine ih A hnd fun a ha => ?_
      have h1 := hlt a ha
      have h2 : a ≠ n := fun he => hn (he ▸ ha)
      omega

/-- Splitting a list's length by a predicate. -/
theorem filter_length_split {α : Type} (p : α → Bool) :
    ∀ l : List α, (l.filter p).length + (l.filter (fun a => !(p a))).length = l.length := by
  intro l
  induction l with
  | nil => rfl
  | cons a l ih =>
    rw [List.filter_cons, List.filter_cons]
    cases hp : p a <;> simp [hp, ← ih] <;> omega

/-- One update returns exactly one tuple per incoming detection: every
detection is either matched to an existing track or spawns a new one. -/
theorem assigns2_length (cfg : Config) (s : TrackerState) (ds : List Det) :
    (assigns2Of cfg s ds).length = ds.length := by
  have hA : (matchPhase cfg ds s.tracks).assignedDets =
      ((matchPhase cfg ds s.tracks).accepted.map Pair.detIdx).reverse :=
    greedy_dets_eq cfg (sortedPairs ds s.tracks) ⟨[], [], []⟩ rfl
  have hAnd : ((matchPhase cfg ds s.tracks).assignedDets).Nodup :=
    greedy_dets_nodup cfg (sortedPairs ds s.tracks) ⟨[], [], []⟩ List.nodup_nil
  have hAlt : ∀ a ∈ (matchPhase cfg ds s.tracks).assignedDets, a < ds.length := by
    intro a ha
    rw [hA, List.mem_reverse] at ha
    obtain ⟨p, hp, rfl⟩ := List.mem_map.mp ha
    exact (sortedPairs_mem ds s.tracks p
      ((matchPhase_accepted_sublist cfg ds s.tracks).subset hp)).1
  have hcount := countInRange ds.length (matchPhase cfg ds s.tracks).assignedDets hAnd hAlt
  have hsplit := filter_length_split
    (fun j => decide (j ∈ (matchPhase cfg ds s.tracks).assignedDets)) (List.range ds.length)
  have hnotc : List.filter
      (fun j => !(decide (j ∈ (matchPhase cfg ds s.tracks).assignedDets)))
      (List.range ds.length) =
      List.filter (fun j => decide (j ∉ (matchPhase cfg ds s.tracks).assignedDets))
        (List.range ds.length) := by
    refine List.filter_congr fun j _ => ?_
    rw [decide_not]
  have hnew : ((newPart cfg s ds).2.1).length =
      (List.filter (fun j => decide (j ∉ (matchPhase cfg ds s.tracks).assignedDets))
        (List.range ds.length)).length := by
    have := addNewGo_length (matchPhase cfg ds s.tracks).assignedDets ds s.nextId 0
    rw [List.range_eq_range']
    exact this
  have hacc : (matchAssigns cfg s ds).length =
      (matchPhase cfg ds s.tracks).assignedDets.length := by
    unfold matchAssigns
    rw [List.length_map, hA, List.length_reverse, List.length_map]
  unfold assigns2Of
  rw [List.length_append, hacc, hnew, ← hnotc, List.length_range] at *
  omega

/-- The per-call output contract of `PlayerTracker.update`: one returned
tuple per detection, pairwise distinct returned ids, and every returned
track registered with lost counter 0. -/
def UpdateOutputSpec (ds : List Det) (outs : List Out) (s1 : TrackerState) : Prop :=
  outs.length = ds.length ∧ (outs.map Out.trackId).Nodup ∧
    ∀ o ∈ outs, ∃ t, lookupTrack o.trackId s1.tracks = some t ∧ t.framesLost = 0

/-- C10: for every reachable state, a successful `update` call on
detection list `ds` returns exactly one (track id, bbox, confidence)
tuple per element of `ds`, the returned ids are pairwise distinct, and
every returned track remains in the registry with lost counter 0. -/
theorem tracker_update_output (cfg : Config) (s : TrackerState) (ds : List Det)
    (outs : List Out) (s1 : TrackerState) (hr : Reachable cfg s)
    (h : update cfg s ds = some (outs, s1)) : UpdateOutputSpec ds outs s1 := by
  have hinv := reachable_inv cfg s hr
  obtain ⟨htracks, _, hmapM⟩ := update_parts cfg s ds outs s1 h
  refine ⟨?_, ?_, ?_⟩
  · rw [optionMapM_length _ _ _ hmapM]
    exact assigns2_length cfg s ds
  · have hids : outs.map Out.trackId = (assigns2Of cfg s ds).map Assign.trackId := by
      refine optionMapM_map _ _ _ ?_ _ _ hmapM
      intro a b hb
      obtain ⟨t, _, hmk⟩ := Option.map_eq_some'.mp hb
      rw [← hmk]
      rfl
    rw [hids, assigns2_ids]
    obtain ⟨k, _, h2, _⟩ := newPart_ids cfg s ds
    rw [h2]
    refine List.Nodup.append (acceptedIds_nodup cfg s ds hinv.1) (List.nodup_range' _ _) ?_
    intro a ha ha2
    obtain ⟨it0, hit0, he⟩ := List.mem_map.mp (acceptedIds_sub_keys cfg s ds a ha)
    obtain ⟨i, _, he2⟩ := List.mem_range'.mp ha2
    have := (hinv.2 it0 hit0).1
    omega
  · intro o ho
    obtain ⟨a, ha, hfa⟩ := optionMapM_mem _ _ _ hmapM o ho
    obtain ⟨t, hlk, hmk⟩ := Option.map_eq_some'.mp hfa
    have hoid : o.trackId = a.trackId := by rw [← hmk]; rfl
    refine ⟨t, ?_, ?_⟩
    · rw [htracks, hoid]
      exact hlk
    · have hmem := lookupTrack_mem _ _ _ hlk
      have haids : a.trackId ∈ (assigns2Of cfg s ds).map Assign.trackId :=
        List.mem_map.mpr ⟨a, ha, rfl⟩
      rcases (ts4_entry cfg s ds hinv (a.trackId, t) hmem).2 with
        ⟨_, _, h0⟩ | ⟨_, h0⟩ | ⟨t0, hmem0, hnm, _⟩
      · exact h0
      · exact h0
      · exfalso
        rw [assigns2_ids] at haids
        rcases List.mem_append.mp haids with hacc | hnew
        · exact hnm hacc
        · have hge := newPart_assignIds_ge cfg s ds a.trackId hnew
          have hlt := (hinv.2 (a.trackId, t0) hmem0).1
          omega

/-- Witness for C10 at a concrete reachable state and detection list. -/
theorem tracker_update_output_witness :
    Reachable cfg0 initTracker ∧
      update cfg0 initTracker [dA, dB] =
        some ([mkOut 1 (mkTrack dA), mkOut 2 (mkTrack dB)],
          ⟨[(1, mkTrack dA), (2, mkTrack dB)], 3⟩) ∧
      UpdateOutputSpec [dA, dB] [mkOut 1 (mkTrack dA), mkOut 2 (mkTrack dB)]
        ⟨[(1, mkTrack dA), (2, mkTrack dB)], 3⟩ :=
  ⟨Reachable.init, by decide,
    tracker_update_output cfg0 initTracker [dA, dB]
      [mkOut 1 (mkTrack dA), mkOut 2 (mkTrack dB)]
      ⟨[(1, mkTrack dA), (2, mkTrack dB)], 3⟩ Reachable.init (by decide)⟩

/-- Unfolding of one step of the left-to-right max scan. -/
theorem pyMaxFrom_cons (b c : ℕ × Cand) (cs : List (ℕ × Cand)) :
    pyMaxFrom b (c :: cs) =
      if b.2.validCount < c.2.validCount then pyMaxFrom c cs else pyMaxFrom b cs := rfl

/-- The left-to-right max scan returns the first maximizer of the
valid-keypoint count among the current best and the remaining list. -/
theorem pyMaxFrom_firstMax :
    ∀ (l : List (ℕ × Cand)) (b : ℕ × Cand),
      ∃ l1 l2, b :: l = l1 ++ pyMaxFrom b l :: l2 ∧
        (∀ y ∈ l1, y.2.validCount < (pyMaxFrom b l).2.validCount) ∧
        ∀ y ∈ l2, y.2.validCount ≤ (pyMaxFrom b l).2.validCount := by
  intro l
  induction l with
  | nil =>
    intro b
    exact ⟨[], [], rfl, fun y hy => absurd hy (List.not_mem_nil y),
      fun y hy => absurd hy (List.not_mem_nil y)⟩
  | cons c cs ih =>
    intro b
    by_cases hlt : b.2.validCount < c.2.validCount
    · obtain ⟨l1, l2, heq, hl1, hl2⟩ := ih c
      have hcle : c.2.validCount ≤ (pyMaxFrom c cs).2.validCount := by
        cases l1 with
        | nil =>
          have hc : c = pyMaxFrom c cs := by
            have h1 := congrArg (fun z => z.head?) heq
            simpa using h1
          rw [← hc]
        | cons x l1t =>
          have hcx : c = x := by
            have h1 := congrArg (fun z => z.head?) heq
            simpa using h1
          exact le_of_lt (hcx ▸ hl1 x (List.mem_cons_self _ _))
      refine ⟨b :: l1, l2, ?_, ?_, ?_⟩
      · rw [pyMaxFrom_cons, if_pos hlt, List.cons_append, ← heq]
      · intro y hy
        rw [pyMaxFrom_cons, if_pos hlt]
        rcases List.mem_cons.mp hy with rfl | hy
        · omega
        · exact hl1 y hy
      · intro y hy
        rw [pyMaxFrom_cons, if_pos hlt]
        exact hl2 y hy
    · obtain ⟨l1, l2, heq, hl1, hl2⟩ := ih b
      cases l1 with
      | nil =>
        have hb : b = pyMaxFrom b cs := by
          have h1 := congrArg (fun z => z.head?) heq
          simpa using h1
        have hcs : cs = l2 := by
          have h2 := congrArg (fun z => z.tail) heq
          simpa using h2
        refine ⟨[], c :: cs, ?_, fun y hy => absurd hy (List.not_mem_nil y), ?_⟩
        · rw [pyMaxFrom_cons, if_neg hlt, ← hb]
          rfl
        · intro y hy
          rw [pyMaxFrom_cons, if_neg hlt, ← hb]
          rcases List.mem_cons.mp hy with rfl | hy
          · omega
          · have hy2 := hl2 y (hcs ▸ hy)
            rw [← hb] at hy2
            exact hy2
      | cons x l1t =>
        have hbx : b = x := by
          have h1 := congrArg (fun z => z.head?) heq
          simpa using h1
        have hcs : cs = l1t ++ pyMaxFrom b cs :: l2 := by
          have h2 := congrArg (fun z => z.tail) heq
          simpa using h2
        have hbr : b.2.validCount < (pyMaxFrom b cs).2.validCount := by
          have hx := hl1 x (List.mem_cons_self _ _)
          rw [← hbx] at hx
          exact hx
        refine ⟨b :: c :: l1t, l2, ?_, ?_, ?_⟩
        · rw [pyMaxFrom_cons, if_neg hlt, List.cons_append, List.cons_append, ← hcs]
        · intro y hy
          rw [pyMaxFrom_cons, if_neg hlt]
          rcases List.mem_cons.mp hy with rfl | hy
          · exact hbr
          · rcases List.mem_cons.mp hy with rfl | hy
            · omega
            · exact hl1 y (List.mem_cons_of_mem _ hy)
        · intro y hy
          rw [pyMaxFrom_cons, if_neg hlt]
          exact hl2 y hy

/-- Python's `max` over the candidate dict returns the first candidate
attaining the maximal valid-keypoint count. -/
theorem pyMax_firstMax (cands : List (ℕ × Cand)) (x : ℕ × Cand)
    (h : pyMax cands = some x) : FirstMaxSel cands x := by
  cases cands with
  | nil => exact absurd h (by simp [pyMax])
  | cons c cs =>
    have hx : pyMaxFrom c cs = x := (Option.some.injEq _ _).mp h
    obtain ⟨l1, l2, heq, hl1, hl2⟩ := pyMaxFrom_firstMax cs c
    rw [hx] at heq hl1 hl2
    exact ⟨l1, l2, heq, hl1, hl2⟩

/-- Unfolding of the per-frame step once the tracker update succeeded. -/
theorem processFrame_eq (cfg : Config) (sel : List ℕ) (idx : ℕ) (s : TrackerState)
    (fr : Frame) (tracked : List Out) (s2 : TrackerState)
    (hupd : update cfg s (filter_players_in_field fr.dets fr.shape) = some (tracked, s2)) :
    processFrame cfg sel idx s fr =
      match candidatesOf fr sel tracked with
      | none => none
      | some cands =>
        some ((match pyMax cands with
          | some bc =>
            (⟨idx, bc.2.keypoints.flatMap (fun k => [k.1, k.2.1, k.2.2])⟩ : Row)
          | none => ⟨idx, (List.replicate 17 [(none : Option ℚ), none, none]).flatten⟩),
          pyMax cands, s2) := by
  unfold processFrame
  rw [hupd]

/-- Decomposition of a successful per-frame step of the second pass. -/
theorem processFrame_parts (cfg : Config) (sel : List ℕ) (idx : ℕ)
    (s : TrackerState) (fr : Frame) (row : Row) (best : Option (ℕ × Cand))
    (s1 : TrackerState)
    (h : processFrame cfg sel idx s fr = some (row, best, s1)) :
    ∃ tracked cands,
      update cfg s (filter_players_in_field fr.dets fr.shape) = some (tracked, s1) ∧
        candidatesOf fr sel tracked = some cands ∧ best = pyMax cands ∧
        row = (match pyMax cands with
          | some bc => ⟨idx, bc.2.keypoints.flatMap (fun k => [k.1, k.2.1, k.2.2])⟩
          | none => ⟨idx, (List.replicate 17 [(none : Option ℚ), none, none]).flatten⟩) := by
  cases hupd : update cfg s (filter_players_in_field fr.dets fr.shape) with
  | none =>
    unfold processFrame at h
    rw [hupd] at h
    exact absurd h (by simp)
  | some p =>
    obtain ⟨tracked, s2⟩ := p
    rw [processFrame_eq cfg sel idx s fr tracked s2 hupd] at h
    cases hc : candidatesOf fr sel tracked with
    | none =>
      rw [hc] at h
      exact absurd h (by simp)
    | some cands =>
      rw [hc] at h
      have h3 := (Option.some.injEq _ _).mp h
      refine ⟨tracked, cands, ?_, hc, ?_, ?_⟩
      · have hs1 : s2 = s1 := congrArg (fun z => z.2.2) h3
        rw [← hs1]
      · exact (congrArg (fun z => z.2.1) h3).symm
      · exact (congrArg (fun z => z.1) h3).symm

/-- C1 counterexample: a frame where candidate tracks 1 and 2 both
produce PoseSamples with the equal, maximal valid-keypoint count 17, yet
the emitted selection is track 2, not the lowest id 1. In frame 1 the
two detections spawn tracks 1 and 2; in frame 2 track 2's detection is
strictly closer to its track, so the greedy association accepts it first
and the tracker returns track 2 first; the `max` over the candidate dict
then keeps the first maximizer, track 2. -/
theorem second_pass_tie_break_cex :
    ((processFrame cfg0 [1, 2] 0 initTracker cexF1).bind
        (fun o => processFrame cfg0 [1, 2] 1 o.2.2 cexF2)).map
      (fun o => (o.2.1).map (fun bc => (bc.1, bc.2.validCount))) =
        some (some (2, 17)) ∧
      ((processFrame cfg0 [1, 2] 0 initTracker cexF1).bind
          (fun o => (update cfg0 o.2.2 (filter_players_in_field cexF2.dets cexF2.shape)).bind
            (fun ts => candidatesOf cexF2 [1, 2] ts.1))).map
        (fun cands => cands.map (fun c => (c.1, c.2.validCount))) =
          some [(2, 17), (1, 17)] ∧
      (1 : ℕ) < 2 :=
  ⟨by decide, by decide, by decide⟩

/-- C1 (amended): when one or more candidates produce a PoseSample, the
emitted best candidate is the first candidate, in the tracker's return
order, attaining the maximal valid-keypoint count — every candidate
before it counts strictly fewer valid keypoints and every candidate
after it counts at most as many. Ties are broken by candidate iteration
order, not by lowest track id. -/
theorem second_pass_tie_first_in_order (cfg : Config) (sel : List ℕ) (idx : ℕ)
    (s : TrackerState) (fr : Frame) (x : ℕ × Cand)
    (h : (processFrame cfg sel idx s fr).map (fun o => o.2.1) = some (some x)) :
    ∃ tracked s2 cands,
      update cfg s (filter_players_in_field fr.dets fr.shape) = some (tracked, s2) ∧
        candidatesOf fr sel tracked = some cands ∧ FirstMaxSel cands x := by
  obtain ⟨o, ho, hbest⟩ := Option.map_eq_some'.mp h
  obtain ⟨row, best, s1⟩ := o
  obtain ⟨tracked, cands, hupd, hc, hbest2, _⟩ :=
    processFrame_parts cfg sel idx s fr row best s1 ho
  refine ⟨tracked, s1, cands, hupd, hc, ?_⟩
  refine pyMax_firstMax cands x ?_
  rw [← hbest2]
  exact hbest

/-- The best candidate entry of the C1/C9 witness frame. -/
def wCand : Cand :=
  Cand.mk (List.replicate 17 ((some (5 : ℚ)), (some (485 : ℚ)), (some (1 : ℚ)))) 17

/-- Witness for the amended C1 on a concrete frame with one candidate. -/
theorem second_pass_tie_first_witness :
    (processFrame cfg0 [1] 0 initTracker wFrame).map (fun o => o.2.1) =
        some (some (1, wCand)) ∧
      ∃ tracked s2 cands,
        update cfg0 initTracker
            (filter_players_in_field wFrame.dets wFrame.shape) = some (tracked, s2) ∧
          candidatesOf wFrame [1] tracked = some cands ∧
          FirstMaxSel cands (1, wCand) :=
  ⟨by decide,
    second_pass_tie_first_in_order cfg0 [1] 0 initTracker wFrame (1, wCand) (by decide)⟩

/-- C2: a candidate whose bounding box lies outside the frame passes the
Detection Filter (which has no horizontal rule) and is tracked, but its
expanded-and-clipped pose crop is empty, so `get_pose_for_player`
returns the Python `None`; the second pass then iterates over `None`
(TypeError) and the run aborts with no record emitted for the frame,
instead of emitting a missing-value record and continuing. -/
theorem second_pass_empty_crop_aborts :
    filter_players_in_field cropFrame.dets cropFrame.shape = [dE] ∧
      get_pose_for_player cropFrame.cap cropFrame.shape dE.x1 dE.y1 dE.x2 dE.y2 = none ∧
      pass2 [1] [cropFrame] = none :=
  ⟨by decide, by decide, by decide⟩

/-- Under a 17-keypoint pose capability, every successful pose extraction
yields exactly 17 adjusted keypoints. -/
theorem get_pose_length (cap : PoseCap) (shape : ℕ × ℕ) (bx1 by1 bx2 by2 : ℚ)
    (kps : List Kp) (hcap : ∀ r ks, cap r = some ks → ks.length = 17)
    (h : get_pose_for_player cap shape bx1 by1 bx2 by2 = some kps) :
    kps.length = 17 := by
  unfold get_pose_for_player at h
  by_cases hemp : sliceLen (max 0 (pyInt by1 - 20)) (min (shape.1 : ℤ) (pyInt by2 + 20))
      (shape.1 : ℤ) = 0 ∨
      sliceLen (max 0 (pyInt bx1 - 20)) (min (shape.2 : ℤ) (pyInt bx2 + 20))
        (shape.2 : ℤ) = 0
  · rw [if_pos hemp] at h
    exact absurd h (by simp)
  · rw [if_neg hemp] at h
    cases hcall : cap (max 0 (pyInt bx1 - 20), max 0 (pyInt by1 - 20),
        min (shape.2 : ℤ) (pyInt bx2 + 20), min (shape.1 : ℤ) (pyInt by2 + 20)) with
    | some l =>
      rw [hcall] at h
      have hk := (Option.some.injEq _ _).mp h
      rw [← hk, List.length_map]
      exact hcap _ l hcall
    | none =>
      rw [hcall] at h
      have hk := (Option.some.injEq _ _).mp h
      rw [← hk]
      exact List.length_replicate _ _

/-- Under a 17-keypoint pose capability, every candidate entry built by
the second pass holds exactly 17 keypoints. -/
theorem candidatesOf_kps (fr : Frame) (sel : List ℕ)
    (hcap : ∀ r ks, fr.cap r = some ks → ks.length = 17) :
    ∀ (tracked : List Out) (cands : List (ℕ × Cand)),
      candidatesOf fr sel tracked = some cands →
      ∀ c ∈ cands, c.2.keypoints.length = 17 := by
  intro tracked
  induction tracked with
  | nil =>
    intro cands h c hc
    have h2 : ([] : List (ℕ × Cand)) = cands := (Option.some.injEq _ _).mp h
    rw [← h2] at hc
    exact absurd hc (List.not_mem_nil c)
  | cons o rest ih =>
    intro cands h c hc
    unfold candidatesOf at h
    by_cases hsel : o.trackId ∈ sel
    · rw [if_pos hsel] at h
      cases hp : get_pose_for_player fr.cap fr.shape o.x1 o.y1 o.x2 o.y2 with
      | none => rw [hp] at h; exact absurd h (by simp)
      | some kps =>
        rw [hp] at h
        obtain ⟨cs, hcs, heq⟩ := Option.map_eq_some'.mp h
        rw [← heq] at hc
        rcases List.mem_cons.mp hc with rfl | hc
        · exact get_pose_length fr.cap fr.shape o.x1 o.y1 o.x2 o.y2 kps hcap hp
        · exact ih cs hcs c hc
    · rw [if_neg hsel] at h
      exact ih cands h c hc

/-- The selected best candidate is one of the candidates. -/
theorem pyMax_mem (cands : List (ℕ × Cand)) (x : ℕ × Cand)
    (h : pyMax cands = some x) : x ∈ cands := by
  obtain ⟨l1, l2, heq, _, _⟩ := pyMax_firstMax cands x h
  rw [heq]
  exact List.mem_append.mpr (Or.inr (List.mem_cons_self _ _))

/-- Flattening keypoint triples triples the length. -/
theorem kp_flatMap_length :
    ∀ kps : List Kp, (kps.flatMap (fun k => [k.1, k.2.1, k.2.2])).length = 3 * kps.length := by
  intro kps
  induction kps with
  | nil => rfl
  | cons k kps ih =>
    rw [List.flatMap_cons, List.length_append, ih, List.length_cons]
    simp
    omega

/-- Every emitted row of the second pass carries its frame index and 51
keypoint fields. -/
theorem processFrame_row (cfg : Config) (sel : List ℕ) (idx : ℕ) (s : TrackerState)
    (fr : Frame) (row : Row) (best : Option (ℕ × Cand)) (s1 : TrackerState)
    (hcap : ∀ r ks, fr.cap r = some ks → ks.length = 17)
    (h : processFrame cfg sel idx s fr = some (row, best, s1)) :
    row.frame = idx ∧ row.fields.length = 51 := by
  obtain ⟨tracked, cands, _, hc, _, hrow⟩ :=
    processFrame_parts cfg sel idx s fr row best s1 h
  cases hbest : pyMax cands with
  | none =>
    rw [hbest] at hrow
    rw [hrow]
    exact ⟨rfl, rfl⟩
  | some bc =>
    rw [hbest] at hrow
    rw [hrow]
    refine ⟨rfl, ?_⟩
    show (bc.2.keypoints.flatMap (fun k => [k.1, k.2.1, k.2.2])).length = 51
    rw [kp_flatMap_length]
    have h17 := candidatesOf_kps fr sel hcap tracked cands hc bc (pyMax_mem cands bc hbest)
    omega

/-- Frame-loop facts of the second pass: one row per frame, sequential
frame indices from the starting index, 51 keypoint fields per row, and a
final count equal to the starting index plus the number of frames. -/
theorem pass2Go_facts (cfg : Config) (sel : List ℕ) :
    ∀ (frames : List Frame) (s : TrackerState) (idx : ℕ) (usage : List (ℕ × ℕ))
      (rows : List Row) (u : List (ℕ × ℕ)) (n : ℕ),
      pass2Go cfg sel s idx usage frames = some (rows, u, n) →
      (∀ fr ∈ frames, ∀ r ks, fr.cap r = some ks → ks.length = 17) →
      rows.length = frames.length ∧ n = idx + frames.length ∧
        (∀ i, ∀ hi : i < rows.length, (rows.get ⟨i, hi⟩).frame = idx + i) ∧
        ∀ row ∈ rows, row.fields.length = 51 := by
  intro frames
  induction frames with
  | nil =>
    intro s idx usage rows u n h _
    have h2 := (Option.some.injEq _ _).mp h
    have hrows : ([] : List Row) = rows := congrArg (fun z => z.1) h2
    have hn : idx = n := congrArg (fun z => z.2.2) h2
    rw [← hrows, ← hn]
    exact ⟨rfl, rfl, fun i hi => absurd hi (by simp),
      fun row hrow => absurd hrow (List.not_mem_nil row)⟩
  | cons fr rest ih =>
    intro s idx usage rows u n h hcap
    unfold pass2Go at h
    cases hpf : processFrame cfg sel idx s fr with
    | none => rw [hpf] at h; exact absurd h (by simp)
    | some q =>
      obtain ⟨row, best, s1⟩ := q
      rw [hpf] at h
      obtain ⟨r, hr, heq⟩ := Option.map_eq_some'.mp h
      have hrows : row :: r.1 = rows := congrArg (fun z => z.1) heq
      have hn : r.2.2 = n := congrArg (fun z => z.2.2) heq
      obtain ⟨ih1, ih2, ih3, ih4⟩ := ih s1 (idx + 1) (bumpUsage usage best) r.1 r.2.1 r.2.2 hr
        (fun fr2 hfr2 => hcap fr2 (List.mem_cons_of_mem _ hfr2))
      obtain ⟨hrf, hrl⟩ := processFrame_row cfg sel idx s fr row best s1
        (hcap fr (List.mem_cons_self _ _)) hpf
      rw [← hrows, ← hn]
      refine ⟨?_, ?_, ?_, ?_⟩
      · rw [List.length_cons, ih1, List.length_cons]
      · rw [ih2, List.length_cons]
        omega
      · intro i hi
        cases i with
        | zero => simpa using hrf
        | succ j =>
          have hj : j < r.1.length := by
            rw [List.length_cons] at hi
            omega
          show ((row :: r.1).get ⟨j + 1, hi⟩).frame = idx + (j + 1)
          rw [List.get_cons_succ, ih3 j hj]
          omega
      · intro row2 hrow2
        rcases List.mem_cons.mp hrow2 with rfl | hrow2
        · exact hrl
        · exact ih4 row2 hrow2

/-- Frame-loop facts of the first pass: one occupancy count per frame. -/
theorem pass1Go_length (cfg : Config) :
    ∀ (frames : List Frame) (s : TrackerState) (counts : List ℕ) (s1 : TrackerState),
      pass1Go cfg s frames = some (counts, s1) → counts.length = frames.length := by
  intro frames
  induction frames with
  | nil =>
    intro s counts s1 h
    have h2 := (Option.some.injEq _ _).mp h
    have hc : ([] : List ℕ) = counts := congrArg (fun z => z.1) h2
    rw [← hc]
    rfl
  | cons fr rest ih =>
    intro s counts s1 h
    unfold pass1Go at h
    cases hu : update cfg s (filter_players_in_field fr.dets fr.shape) with
    | none => rw [hu] at h; exact absurd h (by simp)
    | some p =>
      obtain ⟨outs, s2⟩ := p
      rw [hu] at h
      obtain ⟨r, hr, heq⟩ := Option.map_eq_some'.mp h
      have hc : outs.length :: r.1 = counts := congrArg (fun z => z.1) heq
      rw [← hc, List.length_cons, ih s2 r.1 r.2 hr, List.length_cons]

/-- C9: for every run over a decoded frame list with a 17-keypoint pose
capability, the second pass emits exactly one LandmarkRecord per frame,
in frame order with sequential frame indices starting at 0, each with 51
keypoint fields; the reported frame count equals the number of frames;
the first pass likewise records one occupancy count per frame; and the
missing-value marker is distinct from the numeric value zero. -/
theorem landmark_record_stream (sel : List ℕ) (frames : List Frame)
    (rows : List Row) (usage : List (ℕ × ℕ)) (n : ℕ) (counts : List ℕ)
    (sT : TrackerState)
    (h2 : pass2 sel frames = some (rows, usage, n))
    (h1 : pass1 frames = some (counts, sT))
    (hcap : ∀ fr ∈ frames, ∀ r ks, fr.cap r = some ks → ks.length = 17) :
    rows.length = frames.length ∧ n = frames.length ∧
      counts.length = frames.length ∧
      (∀ i, ∀ hi : i < rows.length, (rows.get ⟨i, hi⟩).frame = i) ∧
      (∀ row ∈ rows, row.fields.length = 51) ∧
      (none : Option ℚ) ≠ some 0 := by
  obtain ⟨g1, g2, g3, g4⟩ :=
    pass2Go_facts cfg0 sel frames initTracker 0 (sel.map (fun pid => (pid, 0)))
      rows usage n h2 hcap
  refine ⟨g1, by rw [g2]; omega, pass1Go_length cfg0 frames initTracker counts sT h1,
    ?_, g4, by simp⟩
  intro i hi
  have := g3 i hi
  omega

/-- The 51 fields of the C9 witness row. -/
def wFields : List (Option ℚ) :=
  (List.replicate 17 ((some (5 : ℚ)), (some (485 : ℚ)), (some (1 : ℚ)))).flatMap
    (fun k => [k.1, k.2.1, k.2.2])

/-- Witness for C9 on a concrete one-frame run. -/
theorem landmark_record_stream_witness :
    pass2 [1] [wFrame] = some ([⟨0, wFields⟩], [(1, 1)], 1) ∧
      pass1 [wFrame] = some ([1], ⟨[(1, mkTrack dA)], 2⟩) ∧
      (∀ fr ∈ [wFrame], ∀ r ks, fr.cap r = some ks → ks.length = 17) ∧
      (([⟨0, wFields⟩] : List Row).length = [wFrame].length ∧ 1 = [wFrame].length ∧
        ([1] : List ℕ).length = [wFrame].length ∧
        (∀ i, ∀ hi : i < ([⟨0, wFields⟩] : List Row).length,
          (([⟨0, wFields⟩] : List Row).get ⟨i, hi⟩).frame = i) ∧
        (∀ row ∈ ([⟨0, wFields⟩] : List Row), row.fields.length = 51) ∧
        (none : Option ℚ) ≠ some 0) := by
  have hcap : ∀ fr ∈ [wFrame], ∀ r ks, fr.cap r = some ks → ks.length = 17 := by
    intro fr hfr r ks h
    have hfr2 : fr = wFrame := List.mem_singleton.mp hfr
    rw [hfr2] at h
    have hks : List.replicate 17 ((5 : ℚ), (5 : ℚ), (1 : ℚ)) = ks :=
      (Option.some.injEq _ _).mp h
    rw [← hks]
    exact List.length_replicate _ _
  exact ⟨by decide, by decide, hcap,
    landmark_record_stream [1] [wFrame] [⟨0, wFields⟩] [(1, 1)] 1 [1]
      ⟨[(1, mkTrack dA)], 2⟩ (by decide) (by decide) hcap⟩
